import Mathlib

set_option maxHeartbeats 1000000
set_option maxRecDepth 100000

/-!
Verification development for the FusBuddy360 chat-palette front end
(`palette.js`): a shallow embedding of the markdown-subset renderer and of
the chat transcript controller, together with theorems about the renderer
and controller properties documented in the project specification.
-/

/-- Word characters of the JavaScript regular-expression class `\w`
(`[A-Za-z0-9_]`), used by the `\b` word-boundary assertions in the
inline-markup patterns of `parseInlineMarkdown`. -/
def isJsWordChar (c : Char) : Bool :=
  c.isAlphanum || c = '_'

/-- Whitespace recognized by JavaScript `String.prototype.trim` and by the
regular-expression class `\s` (WhiteSpace plus LineTerminator). -/
def isJsSpace (c : Char) : Bool :=
  c = ' ' || c = '\t' || c = '\n' || c = '\r' || c = '\x0b' || c = '\x0c' ||
  c = '\u00a0' || c = '\u1680' || ('\u2000' ≤ c && c ≤ '\u200a') ||
  c = '\u2028' || c = '\u2029' || c = '\u202f' || c = '\u205f' ||
  c = '\u3000' || c = '\ufeff'

/-- The JavaScript `text.trim()` operation, on a list of characters. -/
def jsTrim (l : List Char) : List Char :=
  ((l.dropWhile isJsSpace).reverse.dropWhile isJsSpace).reverse

/-- Auxiliary for `splitNl`: first line and list of remaining lines. -/
def splitNlAux : List Char → List Char × List (List Char)
  | [] => ([], [])
  | c :: rest =>
    let p := splitNlAux rest
    if c = '\n' then ([], p.1 :: p.2) else (c :: p.1, p.2)

/-- The JavaScript `text.split('\n')` operation: the separators are
removed and empty pieces are kept, so `n` newline characters produce
`n + 1` lines. -/
def splitNl (l : List Char) : List (List Char) :=
  (splitNlAux l).1 :: (splitNlAux l).2

/-- Escaping of one character as performed by the `escapeHTML` function of
`palette.js` (assigning `textContent` on a detached element and reading
back `innerHTML`): the HTML text-node serialization replaces the
ampersand, the two angle brackets and the no-break space by character
references and leaves every other character unchanged. -/
def escapeChar (c : Char) : List Char :=
  if c = '&' then ("&amp;").data
  else if c = '<' then ("&lt;").data
  else if c = '>' then ("&gt;").data
  else if c = '\u00a0' then ("&nbsp;").data
  else [c]

/-- The `escapeHTML` function of `palette.js`, character for character. -/
def escapeHTML (l : List Char) : List Char :=
  (l.map escapeChar).flatten

/-- One global-replace pass of the JavaScript regular expression
`/\*\*([^*]+)\*\*/g` (respectively `/__([^_]+)__/g` for `d = '_'`) with
replacement `<strong>$1</strong>`, as performed by `parseInlineMarkdown`.
The character class of the capture excludes the delimiter, so the greedy
quantifier deterministically captures the maximal delimiter-free run and
the match succeeds exactly when that run is non-empty and immediately
followed by two delimiter characters.  `fuel` bounds the number of scan
steps; callers pass the input length plus one, which is never exhausted
because every recursive call consumes at least one input character. -/
def boldPass (d : Char) : Nat → List Char → List Char
  | 0, s => s
  | _ + 1, [] => []
  | _ + 1, [c] => [c]
  | fuel + 1, c1 :: c2 :: rest =>
    if c1 = d ∧ c2 = d then
      let run := rest.takeWhile (fun c => c != d)
      let after := rest.dropWhile (fun c => c != d)
      if run ≠ [] ∧ after.take 2 = [d, d] then
        ("<strong>").data ++ run ++ ("</strong>").data ++
          boldPass d fuel (after.drop 2)
      else c1 :: boldPass d fuel (c2 :: rest)
    else c1 :: boldPass d fuel (c2 :: rest)

/-- Word-character test of an optional character; the absence of a
character (start or end of the string) counts as a non-word position. -/
def optWord : Option Char → Bool
  | none => false
  | some c => isJsWordChar c

/-- The JavaScript `\b` word-boundary assertion between two adjacent
positions, given the characters on either side (`none` at either end of
the string): it holds when exactly one side is a word character. -/
def jsBoundary (a b : Option Char) : Bool :=
  optWord a != optWord b

/-- One global-replace pass of the JavaScript regular expression
`/\b\*([^*\n]+?)\*\b/g` (respectively `/\b_([^_\n]+?)_\b/g`) with
replacement `<em>$1</em>`, as performed by `parseInlineMarkdown`.
`prev` is the character immediately before the current scan position,
used by the leading word-boundary assertion; the content class excludes
the delimiter, so the lazy quantifier is forced to stop at the next
delimiter occurrence, and the trailing `\b` is checked between that
closing delimiter and the following character. -/
def italicPass (d : Char) : Nat → Option Char → List Char → List Char
  | 0, _, s => s
  | _ + 1, _, [] => []
  | fuel + 1, prev, c :: rest =>
    if c = d ∧ jsBoundary prev (some d) = true then
      let run := rest.takeWhile (fun x => x != d && x != '\n')
      let after := rest.dropWhile (fun x => x != d && x != '\n')
      match after with
      | d2 :: tail =>
        if d2 = d ∧ run ≠ [] ∧ jsBoundary (some d) tail.head? = true then
          ("<em>").data ++ run ++ ("</em>").data ++
            italicPass d fuel (some d) tail
        else c :: italicPass d fuel (some c) rest
      | [] => c :: italicPass d fuel (some c) rest
    else c :: italicPass d fuel (some c) rest

/-- The `parseInlineMarkdown` function of `palette.js`: escape the whole
text first, then apply the bold substitutions (`**` before `__`), then
the italic substitutions (`*` before `_`). -/
def parseInlineMarkdown (l : List Char) : List Char :=
  let e := escapeHTML l
  let b1 := boldPass '*' (e.length + 1) e
  let b2 := boldPass '_' (b1.length + 1) b1
  let i1 := italicPass '*' (b2.length + 1) none b2
  italicPass '_' (i1.length + 1) none i1

/-- Line terminators, excluded by the JavaScript `.` pattern atom. -/
def isLineTerm (c : Char) : Bool :=
  c = '\n' || c = '\r' || c = '\u2028' || c = '\u2029'

/-- Matching of the regular expression `^(\d+)[.)]\s+(.+)$` used by
`parseMarkdownToHTML` to recognize numbered list lines, returning the
second capture (the step text after the numeral, the separator and the
whitespace) on success.  The digit run is maximal (a shorter run would be
followed by a digit, which is neither `.` nor `)`), the whitespace run
after the separator is maximal with `(.+)$` covering the non-empty rest
of the line, which may not contain a line terminator; when the rest is
empty, the backtracking of `\s+` hands the final whitespace character to
`(.+)` provided at least one whitespace character remains consumed. -/
def numberedMatch (l : List Char) : Option (List Char) :=
  let ds := l.takeWhile Char.isDigit
  if ds = [] then none
  else
    match l.drop ds.length with
    | [] => none
    | sep :: rest1 =>
      if sep = '.' ∨ sep = ')' then
        let sp := rest1.takeWhile isJsSpace
        let r := rest1.dropWhile isJsSpace
        if sp = [] then none
        else if r = [] then
          match sp.getLast? with
          | some c =>
            if 2 ≤ sp.length ∧ isLineTerm c = false then some [c] else none
          | none => none
        else if r.any isLineTerm then none
        else some r
      else none

/-- The identifier assigned to a step item by `parseMarkdownToHTML`: the
template literal over the wall-clock millisecond timestamp (`Date.now()`,
modelled by `now`) and the per-render step counter. -/
def stepId (now k : Nat) : List Char :=
  ("step-").data ++ (Nat.repr now).data ++ ("-").data ++ (Nat.repr k).data

/-- The step-item fragment pushed by `parseMarkdownToHTML` for a numbered
line: the checkbox label template around the inline-parsed step text. -/
def stepFrag (now k : Nat) (rest : List Char) : List Char :=
  ("<label class=\"step-item\"><input type=\"checkbox\" class=\"step-checkbox\" id=\"").data
    ++ stepId now k ++ ("\"><span class=\"step-text\">").data
    ++ parseInlineMarkdown rest ++ ("</span></label>").data

/-- The heading fragment pushed by `parseMarkdownToHTML` for a heading
line.  The source applies `escapeHTML` a second time around the
already-escaped inline parse, so any emphasis markup inside a heading is
rendered inert. -/
def headingFrag (lvl : Nat) (rest : List Char) : List Char :=
  ("<h").data ++ (Nat.repr lvl).data ++ (">").data
    ++ escapeHTML (parseInlineMarkdown rest)
    ++ ("</h").data ++ (Nat.repr lvl).data ++ (">").data

/-- The line loop of `parseMarkdownToHTML`: each line is trimmed and then
classified (heading prefixes in longest-first order, then numbered step,
then blank line, then paragraph text); `inP` is the `inParagraph` flag
and `k` the `stepCounter`.  The pushed output fragments are returned in
order; a still-open paragraph is closed after the last line.  The
`nextLine` lookahead computed by the source is unused and has no effect
on the output. -/
def renderLoop (now : Nat) : List (List Char) → Bool → Nat → List (List Char)
  | [], inP, _ => if inP then [("</p>").data] else []
  | l :: ls, inP, k =>
    let line := jsTrim l
    if ("### ").data.isPrefixOf line then
      (if inP then [("</p>").data] else []) ++
        (headingFrag 3 (line.drop 4) :: renderLoop now ls false k)
    else if ("## ").data.isPrefixOf line then
      (if inP then [("</p>").data] else []) ++
        (headingFrag 2 (line.drop 3) :: renderLoop now ls false k)
    else if ("# ").data.isPrefixOf line then
      (if inP then [("</p>").data] else []) ++
        (headingFrag 1 (line.drop 2) :: renderLoop now ls false k)
    else
      match numberedMatch line with
      | some rest =>
        (if inP then [("</p>").data] else []) ++
          (stepFrag now k rest :: renderLoop now ls false (k + 1))
      | none =>
        if line = [] then
          (if inP then [("</p>").data] else []) ++ renderLoop now ls false k
        else if inP then
          ("<br>").data :: parseInlineMarkdown line :: renderLoop now ls true k
        else
          ("<p>").data :: parseInlineMarkdown line :: renderLoop now ls true k

/-- The `parseMarkdownToHTML` function of `palette.js`: split the text on
newlines, run the line loop, and join the pushed fragments.  `Date.now()`
is modelled by the parameter `now`, held constant within one render call
(the source samples the clock once per step item; only the step
identifier strings depend on it). -/
def parseMarkdownToHTML (now : Nat) (text : String) : String :=
  String.mk (renderLoop now (splitNl text.data) false 0).flatten

/-- Abstract rendered-block view of the output of `parseMarkdownToHTML`
(the RenderedBlock data model of the specification): a heading carries
its level and final text content, a step item its identifier and inline
content, a paragraph the inline contents of its lines in order. -/
inductive Block where
  | heading (level : Nat) (content : List Char)
  | step (sid : List Char) (content : List Char)
  | para (parts : List (List Char))
deriving DecidableEq, Repr

/-- Body of a rendered paragraph: the inline contents of its lines joined
by the line-break separator. -/
def paraBody : List (List Char) → List Char
  | [] => []
  | [p] => p
  | p :: q :: rest => p ++ ("<br>").data ++ paraBody (q :: rest)

/-- Concrete markup of one abstract block, exactly as emitted by
`parseMarkdownToHTML`. -/
def renderBlock : Block → List Char
  | Block.heading lvl content =>
      ("<h").data ++ (Nat.repr lvl).data ++ (">").data ++ content ++
        ("</h").data ++ (Nat.repr lvl).data ++ (">").data
  | Block.step sid content =>
      ("<label class=\"step-item\"><input type=\"checkbox\" class=\"step-checkbox\" id=\"").data
        ++ sid ++ ("\"><span class=\"step-text\">").data
        ++ content ++ ("</span></label>").data
  | Block.para parts => ("<p>").data ++ paraBody parts ++ ("</p>").data

/-- Closing of the currently open paragraph, if one is open. -/
def closePara : Option (List (List Char)) → List Block
  | none => []
  | some parts => [Block.para parts]

/-- Block-level version of the `parseMarkdownToHTML` line loop: the same
trimming and classification, accumulating the open paragraph as the list
of its inline line contents instead of pushing markup fragments. -/
def parseBlocksLoop (now : Nat) :
    List (List Char) → Option (List (List Char)) → Nat → List Block
  | [], op, _ => closePara op
  | l :: ls, op, k =>
    let line := jsTrim l
    if ("### ").data.isPrefixOf line then
      closePara op ++
        (Block.heading 3 (escapeHTML (parseInlineMarkdown (line.drop 4))) ::
          parseBlocksLoop now ls none k)
    else if ("## ").data.isPrefixOf line then
      closePara op ++
        (Block.heading 2 (escapeHTML (parseInlineMarkdown (line.drop 3))) ::
          parseBlocksLoop now ls none k)
    else if ("# ").data.isPrefixOf line then
      closePara op ++
        (Block.heading 1 (escapeHTML (parseInlineMarkdown (line.drop 2))) ::
          parseBlocksLoop now ls none k)
    else
      match numberedMatch line with
      | some rest =>
        closePara op ++
          (Block.step (stepId now k) (parseInlineMarkdown rest) ::
            parseBlocksLoop now ls none (k + 1))
      | none =>
        if line = [] then closePara op ++ parseBlocksLoop now ls none k
        else
          match op with
          | none => parseBlocksLoop now ls (some [parseInlineMarkdown line]) k
          | some parts =>
            parseBlocksLoop now ls (some (parts ++ [parseInlineMarkdown line])) k

/-- Abstract block sequence produced by one render call. -/
def parseBlocks (now : Nat) (text : String) : List Block :=
  parseBlocksLoop now (splitNl text.data) none 0

/-- Concrete markup of a block sequence. -/
def blocksHtml (bs : List Block) : List Char :=
  (bs.map renderBlock).flatten

theorem paraBody_append (parts : List (List Char)) (c : List Char)
    (hp : parts ≠ []) :
    paraBody (parts ++ [c]) = paraBody parts ++ ("<br>").data ++ c := by
  induction parts with
  | nil => exact absurd rfl hp
  | cons p ps ih =>
    cases ps with
    | nil => simp [paraBody]
    | cons q rest =>
      have h2 : paraBody ((q :: rest) ++ [c]) =
          paraBody (q :: rest) ++ ("<br>").data ++ c := ih (by simp)
      simp only [List.cons_append, List.append_eq, paraBody] at h2 ⊢
      rw [h2]
      simp [List.append_assoc]

theorem renderLoop_blocks (now : Nat) (ls : List (List Char)) :
    ∀ k : Nat,
      ((renderLoop now ls false k).flatten =
        ((parseBlocksLoop now ls none k).map renderBlock).flatten) ∧
      (∀ parts, parts ≠ [] →
        ("<p>").data ++ paraBody parts ++ (renderLoop now ls true k).flatten =
          ((parseBlocksLoop now ls (some parts) k).map renderBlock).flatten) := by
  induction ls with
  | nil =>
    intro k
    refine ⟨by simp [renderLoop, parseBlocksLoop, closePara], ?_⟩
    intro parts hp
    simp [renderLoop, parseBlocksLoop, closePara, renderBlock,
      List.append_assoc]
  | cons l ls ih =>
    intro k
    by_cases h3 : ("### ").data.isPrefixOf (jsTrim l)
    · refine ⟨?_, ?_⟩
      · simp only [renderLoop, parseBlocksLoop, h3, if_true, closePara]
        simp [renderBlock, headingFrag, List.append_assoc, (ih k).1]
      · intro parts hp
        simp only [renderLoop, parseBlocksLoop, h3, if_true, closePara]
        simp [renderBlock, headingFrag, List.append_assoc, (ih k).1]
    · by_cases h2 : ("## ").data.isPrefixOf (jsTrim l)
      · refine ⟨?_, ?_⟩
        · simp only [renderLoop, parseBlocksLoop, h3, h2, if_true, if_false,
            closePara]
          simp [renderBlock, headingFrag, List.append_assoc, (ih k).1]
        · intro parts hp
          simp only [renderLoop, parseBlocksLoop, h3, h2, if_true, if_false,
            closePara]
          simp [renderBlock, headingFrag, List.append_assoc, (ih k).1]
      · by_cases h1 : ("# ").data.isPrefixOf (jsTrim l)
        · refine ⟨?_, ?_⟩
          · simp only [renderLoop, parseBlocksLoop, h3, h2, h1, if_true,
              if_false, closePara]
            simp [renderBlock, headingFrag, List.append_assoc, (ih k).1]
          · intro parts hp
            simp only [renderLoop, parseBlocksLoop, h3, h2, h1, if_true,
              if_false, closePara]
            simp [renderBlock, headingFrag, List.append_assoc, (ih k).1]
        · cases hnum : numberedMatch (jsTrim l) with
          | some rest =>
            refine ⟨?_, ?_⟩
            · simp only [renderLoop, parseBlocksLoop, h3, h2, h1, if_false,
                hnum, closePara]
              simp [renderBlock, stepFrag, List.append_assoc, (ih (k + 1)).1]
            · intro parts hp
              simp only [renderLoop, parseBlocksLoop, h3, h2, h1, if_false,
                hnum, closePara]
              simp [renderBlock, stepFrag, List.append_assoc, (ih (k + 1)).1]
          | none =>
            by_cases hb : jsTrim l = []
            · refine ⟨?_, ?_⟩
              · simp only [renderLoop, parseBlocksLoop, h3, h2, h1, if_false,
                  hnum]
                simp [hb, closePara, (ih k).1]
              · intro parts hp
                simp only [renderLoop, parseBlocksLoop, h3, h2, h1, if_false,
                  hnum]
                simp [hb, closePara, renderBlock, List.append_assoc, (ih k).1]
            · refine ⟨?_, ?_⟩
              · simp only [renderLoop, parseBlocksLoop, h3, h2, h1, if_false,
                  hnum, hb, closePara]
                have hx := (ih k).2 [parseInlineMarkdown (jsTrim l)] (by simp)
                simp only [paraBody] at hx
                simpa [List.append_assoc] using hx
              · intro parts hp
                simp only [renderLoop, parseBlocksLoop, h3, h2, h1, if_false,
                  hnum, hb, closePara]
                have hx := (ih k).2
                  (parts ++ [parseInlineMarkdown (jsTrim l)]) (by simp)
                rw [paraBody_append parts (parseInlineMarkdown (jsTrim l)) hp]
                  at hx
                simpa [List.append_assoc] using hx

/-- The concrete render output is the markup of the abstract block view:
the two loops agree line by line. -/
theorem parseMarkdownToHTML_eq_blocks (now : Nat) (text : String) :
    parseMarkdownToHTML now text =
      String.mk (blocksHtml (parseBlocks now text)) := by
  unfold parseMarkdownToHTML parseBlocks blocksHtml
  rw [(renderLoop_blocks now (splitNl text.data) 0).1]

/-- The four fixed emphasis tags that `parseInlineMarkdown` may inject. -/
def emTags : List (List Char) :=
  [("<strong>").data, ("</strong>").data, ("<em>").data, ("</em>").data]

/-- Markup safety of inline-parsed text: the string is a sequence of
ordinary characters (neither `<` nor `>`) and whole fixed emphasis tags,
so the only live markup it can carry is the fixed bold/italic set and no
character of the raw input survives as a structural delimiter. -/
inductive EmSafe : List Char → Prop where
  | nil : EmSafe []
  | char (c : Char) (t : List Char) (h1 : c ≠ '<') (h2 : c ≠ '>')
      (ht : EmSafe t) : EmSafe (c :: t)
  | tag (tg t : List Char) (h : tg ∈ emTags) (ht : EmSafe t) :
      EmSafe (tg ++ t)

theorem EmSafe_append {a b : List Char} (ha : EmSafe a) (hb : EmSafe b) :
    EmSafe (a ++ b) := by
  induction ha with
  | nil => exact hb
  | char c t h1 h2 ht ih => exact EmSafe.char c (t ++ b) h1 h2 ih
  | tag tg t htg ht ih =>
    rw [List.append_assoc]
    exact EmSafe.tag tg (t ++ b) htg ih

theorem EmSafe_of_mem_emTags {tg : List Char} (htg : tg ∈ emTags) :
    EmSafe tg := by
  have h := EmSafe.tag tg [] htg EmSafe.nil
  simpa using h

/-- Text without any angle-bracket character. -/
def noAngle (l : List Char) : Prop :=
  ∀ c ∈ l, c ≠ '<' ∧ c ≠ '>'

theorem EmSafe_of_noAngle {l : List Char} (h : noAngle l) : EmSafe l := by
  induction l with
  | nil => exact EmSafe.nil
  | cons c t ih =>
    have hc := h c (by simp)
    exact EmSafe.char c t hc.1 hc.2 (ih fun x hx => h x (by simp [hx]))

theorem noAngle_escapeChar (c : Char) : noAngle (escapeChar c) := by
  unfold escapeChar noAngle
  split_ifs with h1 h2 h3 h4
  · decide
  · decide
  · decide
  · decide
  · intro x hx
    simp only [List.mem_singleton] at hx
    subst hx
    exact ⟨h2, h3⟩

theorem noAngle_escapeHTML (l : List Char) : noAngle (escapeHTML l) := by
  induction l with
  | nil => intro c hc; simp [escapeHTML] at hc
  | cons c t ih =>
    intro x hx
    simp only [escapeHTML, List.map_cons, List.flatten_cons,
      List.mem_append] at hx
    rcases hx with hx | hx
    · exact noAngle_escapeChar c x hx
    · exact ih x (by simpa [escapeHTML] using hx)

theorem emTags_ne_nil {tg : List Char} (htg : tg ∈ emTags) : tg ≠ [] := by
  simp only [emTags, List.mem_cons, List.not_mem_nil, or_false] at htg
  rcases htg with h | h | h | h <;> subst h <;> decide

theorem emTags_head {tg : List Char} (htg : tg ∈ emTags) :
    tg.head? = some '<' := by
  simp only [emTags, List.mem_cons, List.not_mem_nil, or_false] at htg
  rcases htg with h | h | h | h <;> subst h <;> rfl

/-- A markup-safe string never starts in the middle of a tag: dropping a
leading character other than the tag opener keeps it safe. -/
theorem EmSafe_tail_aux {s : List Char} (h : EmSafe s) :
    ∀ c t, s = c :: t → c ≠ '<' → EmSafe t := by
  cases h with
  | nil => intro c t heq; cases heq
  | char c0 t0 h1 h2 ht =>
    intro c t heq hc
    cases heq
    exact ht
  | tag tg t0 htg ht =>
    intro c t heq hc
    exfalso
    apply hc
    have hhead : (tg ++ t0).head? = some '<' := by
      rw [List.head?_append, emTags_head htg]
      rfl
    rw [heq] at hhead
    have := hhead.symm
    simp only [List.head?_cons, Option.some.injEq] at this
    exact this.symm

/-- A markup-safe string never starts in the middle of a tag: dropping a
leading character other than the tag opener keeps it safe. -/
theorem EmSafe_tail {c : Char} {t : List Char} (h : EmSafe (c :: t))
    (hc : c ≠ '<') : EmSafe t :=
  EmSafe_tail_aux h c t rfl hc

theorem length_dropWhile_le (p : Char → Bool) (l : List Char) :
    (l.dropWhile p).length ≤ l.length := by
  induction l with
  | nil => simp
  | cons c t ih =>
    by_cases hc : p c
    · simp only [List.dropWhile_cons, hc, if_true]
      exact Nat.le_trans ih (by simp)
    · simp [List.dropWhile_cons, hc]

theorem takeWhile_append_all {p : Char → Bool} :
    ∀ {a : List Char}, (∀ c ∈ a, p c = true) → ∀ (b : List Char),
      (a ++ b).takeWhile p = a ++ b.takeWhile p ∧
        (a ++ b).dropWhile p = b.dropWhile p := by
  intro a
  induction a with
  | nil => intro _ b; simp
  | cons c a2 ih =>
    intro ha b
    have hc : p c = true := ha c (by simp)
    have h2 := ih (fun x hx => ha x (by simp [hx])) b
    simp [List.takeWhile_cons, List.dropWhile_cons, hc, h2.1, h2.2]

theorem EmSafe_takeWhile_dropWhile {p : Char → Bool}
    (hp : ∀ tg ∈ emTags, ∀ c ∈ tg, p c = true) {s : List Char}
    (hs : EmSafe s) :
    EmSafe (s.takeWhile p) ∧ EmSafe (s.dropWhile p) := by
  induction hs with
  | nil => exact ⟨EmSafe.nil, EmSafe.nil⟩
  | char c t h1 h2 ht ih =>
    by_cases pc : p c
    · refine ⟨?_, ?_⟩
      · simpa [List.takeWhile_cons, pc] using
          EmSafe.char c (t.takeWhile p) h1 h2 ih.1
      · simpa [List.dropWhile_cons, pc] using ih.2
    · refine ⟨?_, ?_⟩
      · simp [List.takeWhile_cons, pc]
        exact EmSafe.nil
      · simpa [List.dropWhile_cons, pc] using EmSafe.char c t h1 h2 ht
  | tag tg t htg ht ih =>
    have h := takeWhile_append_all (hp tg htg) t
    refine ⟨?_, ?_⟩
    · rw [h.1]
      exact EmSafe.tag tg (t.takeWhile p) htg ih.1
    · rw [h.2]
      exact ih.2

/-- The bold scan copies any delimiter-free prefix verbatim: no match can
begin inside it, and the fuel decreases by one per copied character. -/
theorem boldPass_append {d : Char} :
    ∀ (a : List Char), (∀ c ∈ a, c ≠ d) → ∀ (fuel : Nat) (s : List Char),
      boldPass d fuel (a ++ s) = a ++ boldPass d (fuel - a.length) s := by
  intro a
  induction a with
  | nil => intro _ fuel s; simp
  | cons c a2 ih =>
    intro ha fuel s
    have hc : c ≠ d := ha c (by simp)
    cases fuel with
    | zero => simp [boldPass]
    | succ f =>
      rcases h2 : a2 ++ s with _ | ⟨x, xs⟩
      · have ha2 : a2 = [] := by cases a2 <;> simp_all
        have hs : s = [] := by
          subst ha2
          simpa using h2
        subst ha2
        subst hs
        cases f <;> simp [boldPass]
      · have hshape : (c :: a2) ++ s = c :: x :: xs := by
          rw [List.cons_append, h2]
        rw [hshape]
        have hrec : boldPass d (f + 1) (c :: x :: xs) =
            c :: boldPass d f (x :: xs) := by
          simp only [boldPass]
          rw [if_neg]
          intro hcontra
          exact hc hcontra.1
        rw [hrec, ← h2,
          ih (fun y hy => ha y (by simp [hy])) f s]
        simp [Nat.succ_sub_succ]

/-- Last character of a list, or a fallback when the list is empty: the
character preceding the scan position after a verbatim-copied prefix. -/
def lastOr (prev : Option Char) : List Char → Option Char
  | [] => prev
  | c :: rest => lastOr (some c) rest

/-- The italic scan copies any delimiter-free prefix verbatim, updating
the previous-character state used by the word-boundary assertion. -/
theorem italicPass_append {d : Char} :
    ∀ (a : List Char), (∀ c ∈ a, c ≠ d) →
      ∀ (fuel : Nat) (prev : Option Char) (s : List Char),
        italicPass d fuel prev (a ++ s) =
          a ++ italicPass d (fuel - a.length) (lastOr prev a) s := by
  intro a
  induction a with
  | nil => intro _ fuel prev s; simp [lastOr]
  | cons c a2 ih =>
    intro ha fuel prev s
    have hc : c ≠ d := ha c (by simp)
    cases fuel with
    | zero => simp [italicPass]
    | succ f =>
      have hrec : italicPass d (f + 1) prev (c :: (a2 ++ s)) =
          c :: italicPass d f (some c) (a2 ++ s) := by
        simp only [italicPass]
        rw [if_neg]
        intro hcontra
        exact hc hcontra.1
      rw [List.cons_append, hrec,
        ih (fun y hy => ha y (by simp [hy])) f (some c) s]
      simp [lastOr, Nat.succ_sub_succ]

/-- Decomposition of a list whose first two elements are known via
`take`. -/
theorem take_two_shape {d : Char} {l : List Char}
    (h : l.take 2 = [d, d]) : l = d :: d :: l.drop 2 := by
  rcases l with _ | ⟨x, _ | ⟨y, t⟩⟩
  · simp at h
  · simp at h
  · simp only [List.take_succ_cons, List.take_zero] at h
    injection h with hx h2
    injection h2 with hy _
    subst hx
    subst hy
    rfl

/-- The `**`/`__` bold substitution preserves markup safety: it copies
safe input and only wraps delimiter-free runs in whole `strong` tags. -/
theorem EmSafe_boldPass {d : Char} (hd1 : d ≠ '<') (hd2 : d ≠ '>')
    (hdt : ∀ tg ∈ emTags, ∀ c ∈ tg, c ≠ d) :
    ∀ (n fuel : Nat) (s : List Char), s.length ≤ n → EmSafe s →
      EmSafe (boldPass d fuel s) := by
  intro n
  induction n with
  | zero =>
    intro fuel s hl hs
    have hnil : s = [] := by cases s <;> simp_all
    subst hnil
    cases fuel <;> simpa [boldPass] using EmSafe.nil
  | succ n ih =>
    intro fuel s hl hs
    cases fuel with
    | zero => simpa [boldPass] using hs
    | succ f =>
      cases hs with
      | nil => simpa [boldPass] using EmSafe.nil
      | char c t h1 h2 ht =>
        cases t with
        | nil => simpa [boldPass] using EmSafe.char c [] h1 h2 EmSafe.nil
        | cons c2 rest =>
          simp only [List.length_cons] at hl
          by_cases hcd : c = d ∧ c2 = d
          · have hrest : EmSafe rest :=
              EmSafe_tail ht (by rw [hcd.2]; exact hd1)
            have hta := EmSafe_takeWhile_dropWhile
              (p := fun x => x != d)
              (fun tg htg x hx => by
                simp only [bne_iff_ne, ne_eq, decide_eq_true_eq]
                exact hdt tg htg x hx)
              hrest
            by_cases hm : rest.takeWhile (fun x => x != d) ≠ [] ∧
                (rest.dropWhile (fun x => x != d)).take 2 = [d, d]
            · have hshape := take_two_shape hm.2
              have hdrop : EmSafe
                  ((rest.dropWhile (fun x => x != d)).drop 2) :=
                EmSafe_tail (EmSafe_tail (hshape ▸ hta.2) hd1) hd1
              have hlen :
                  ((rest.dropWhile (fun x => x != d)).drop 2).length ≤ n := by
                have h3 := length_dropWhile_le (fun x => x != d) rest
                have h4 := List.length_drop 2
                  (rest.dropWhile (fun x => x != d))
                omega
              simp only [boldPass, if_pos hcd, if_pos hm]
              exact EmSafe_append
                (EmSafe_append
                  (EmSafe_append
                    (EmSafe_of_mem_emTags (by simp [emTags]))
                    hta.1)
                  (EmSafe_of_mem_emTags (by simp [emTags])))
                (ih f _ hlen hdrop)
            · simp only [boldPass, if_pos hcd, if_neg hm]
              exact EmSafe.char c _ h1 h2 (ih f (c2 :: rest)
                (by simp only [List.length_cons]; omega) ht)
          · simp only [boldPass, if_neg hcd]
            exact EmSafe.char c _ h1 h2 (ih f (c2 :: rest)
              (by simp only [List.length_cons]; omega) ht)
      | tag tg t htg ht =>
        rw [boldPass_append tg (hdt tg htg) (f + 1) t]
        refine EmSafe.tag tg _ htg (ih _ t ?_ ht)
        have h5 : 0 < tg.length :=
          List.length_pos.mpr (emTags_ne_nil htg)
        rw [List.length_append] at hl
        omega

/-- The `*`/`_` italic substitution preserves markup safety: it copies
safe input and only wraps delimiter-free runs in whole `em` tags. -/
theorem EmSafe_italicPass {d : Char} (hd1 : d ≠ '<') (hd2 : d ≠ '>')
    (hdt : ∀ tg ∈ emTags, ∀ c ∈ tg, c ≠ d)
    (hdn : ∀ tg ∈ emTags, ∀ c ∈ tg, c ≠ '\n') :
    ∀ (n fuel : Nat) (prev : Option Char) (s : List Char),
      s.length ≤ n → EmSafe s → EmSafe (italicPass d fuel prev s) := by
  intro n
  induction n with
  | zero =>
    intro fuel prev s hl hs
    have hnil : s = [] := by cases s <;> simp_all
    subst hnil
    cases fuel <;> simpa [italicPass] using EmSafe.nil
  | succ n ih =>
    intro fuel prev s hl hs
    cases fuel with
    | zero => simpa [italicPass] using hs
    | succ f =>
      cases hs with
      | nil => simpa [italicPass] using EmSafe.nil
      | char c t h1 h2 ht =>
        simp only [List.length_cons] at hl
        by_cases hcd : c = d ∧ jsBoundary prev (some d) = true
        · have hta := EmSafe_takeWhile_dropWhile
            (p := fun x => x != d && x != '\n')
            (fun tg htg x hx => by
              simp only [Bool.and_eq_true, bne_iff_ne, ne_eq,
                decide_eq_true_eq]
              exact ⟨hdt tg htg x hx, hdn tg htg x hx⟩)
            ht
          rcases hafter : t.dropWhile (fun x => x != d && x != '\n') with
            _ | ⟨d2, tail⟩
          · simp only [italicPass, if_pos hcd, hafter]
            exact EmSafe.char c _ h1 h2 (ih f (some c) t (by omega) ht)
          · by_cases hm : d2 = d ∧ t.takeWhile (fun x => x != d && x != '\n') ≠ [] ∧
                jsBoundary (some d) tail.head? = true
            · have htail : EmSafe tail := by
                have := hafter ▸ hta.2
                exact EmSafe_tail this (by rw [hm.1]; exact hd1)
              have hlen : tail.length ≤ n := by
                have h3 := length_dropWhile_le
                  (fun x => x != d && x != '\n') t
                rw [hafter] at h3
                simp only [List.length_cons] at h3
                omega
              simp only [italicPass, if_pos hcd, hafter, if_pos hm]
              exact EmSafe_append
                (EmSafe_append
                  (EmSafe_append
                    (EmSafe_of_mem_emTags (by simp [emTags]))
                    hta.1)
                  (EmSafe_of_mem_emTags (by simp [emTags])))
                (ih f (some d) tail hlen htail)
            · simp only [italicPass, if_pos hcd, hafter, if_neg hm]
              exact EmSafe.char c _ h1 h2 (ih f (some c) t (by omega) ht)
        · simp only [italicPass, if_neg hcd]
          exact EmSafe.char c _ h1 h2 (ih f (some c) t (by omega) ht)
      | tag tg t htg ht =>
        rw [italicPass_append tg (hdt tg htg) (f + 1) prev t]
        refine EmSafe.tag tg _ htg (ih _ _ t ?_ ht)
        have h5 : 0 < tg.length :=
          List.length_pos.mpr (emTags_ne_nil htg)
        rw [List.length_append] at hl
        omega

/-- Every inline parse is markup safe: the four substitution passes over
the escaped text can only produce ordinary characters and whole fixed
emphasis tags. -/
theorem EmSafe_parseInlineMarkdown (l : List Char) :
    EmSafe (parseInlineMarkdown l) := by
  have h0 : EmSafe (escapeHTML l) :=
    EmSafe_of_noAngle (noAngle_escapeHTML l)
  have h1 := EmSafe_boldPass (d := '*') (by decide) (by decide) (by decide)
    (escapeHTML l).length ((escapeHTML l).length + 1) (escapeHTML l)
    (Nat.le_refl _) h0
  have h2 := EmSafe_boldPass (d := '_') (by decide) (by decide) (by decide)
    (boldPass '*' ((escapeHTML l).length + 1) (escapeHTML l)).length
    ((boldPass '*' ((escapeHTML l).length + 1) (escapeHTML l)).length + 1)
    (boldPass '*' ((escapeHTML l).length + 1) (escapeHTML l))
    (Nat.le_refl _) h1
  set b2 := boldPass '_'
    ((boldPass '*' ((escapeHTML l).length + 1) (escapeHTML l)).length + 1)
    (boldPass '*' ((escapeHTML l).length + 1) (escapeHTML l)) with hb2
  have h3 := EmSafe_italicPass (d := '*') (by decide) (by decide) (by decide)
    (by decide) b2.length (b2.length + 1) none b2 (Nat.le_refl _) h2
  set i1 := italicPass '*' (b2.length + 1) none b2 with hi1
  have h4 := EmSafe_italicPass (d := '_') (by decide) (by decide) (by decide)
    (by decide) i1.length (i1.length + 1) none i1 (Nat.le_refl _) h3
  exact h4

/-- The four inline substitution passes, in source order, applied to
already-escaped text. -/
def inlineSubstitutions (e : List Char) : List Char :=
  let b1 := boldPass '*' (e.length + 1) e
  let b2 := boldPass '_' (b1.length + 1) b1
  let i1 := italicPass '*' (b2.length + 1) none b2
  italicPass '_' (i1.length + 1) none i1

/-- Markup safety of one abstract block: all inline text content is a mix
of ordinary characters and whole fixed emphasis tags. -/
def blockSafe : Block → Prop
  | Block.heading _ content => EmSafe content
  | Block.step _ content => EmSafe content
  | Block.para parts => ∀ p ∈ parts, EmSafe p

/-- Safety of the open-paragraph accumulator. -/
def opSafe : Option (List (List Char)) → Prop
  | none => True
  | some parts => ∀ p ∈ parts, EmSafe p

theorem blockSafe_closePara (op : Option (List (List Char)))
    (hop : opSafe op) : ∀ b ∈ closePara op, blockSafe b := by
  cases op with
  | none => intro b hb; simp [closePara] at hb
  | some parts =>
    intro b hb
    simp only [closePara, List.mem_singleton] at hb
    subst hb
    exact hop

theorem parseBlocksLoop_safe (now : Nat) :
    ∀ (ls : List (List Char)) (op : Option (List (List Char))) (k : Nat),
      opSafe op → ∀ b ∈ parseBlocksLoop now ls op k, blockSafe b := by
  intro ls
  induction ls with
  | nil =>
    intro op k hop b hb
    exact blockSafe_closePara op hop b (by simpa [parseBlocksLoop] using hb)
  | cons l ls ih =>
    intro op k hop b hb
    simp only [parseBlocksLoop] at hb
    split at hb
    · rcases List.mem_append.1 hb with h | h
      · exact blockSafe_closePara op hop b h
      · rcases List.mem_cons.1 h with rfl | h
        · exact EmSafe_of_noAngle (noAngle_escapeHTML _)
        · exact ih none k trivial b h
    · split at hb
      · rcases List.mem_append.1 hb with h | h
        · exact blockSafe_closePara op hop b h
        · rcases List.mem_cons.1 h with rfl | h
          · exact EmSafe_of_noAngle (noAngle_escapeHTML _)
          · exact ih none k trivial b h
      · split at hb
        · rcases List.mem_append.1 hb with h | h
          · exact blockSafe_closePara op hop b h
          · rcases List.mem_cons.1 h with rfl | h
            · exact EmSafe_of_noAngle (noAngle_escapeHTML _)
            · exact ih none k trivial b h
        · split at hb
          · rcases List.mem_append.1 hb with h | h
            · exact blockSafe_closePara op hop b h
            · rcases List.mem_cons.1 h with rfl | h
              · exact EmSafe_parseInlineMarkdown _
              · exact ih none (k + 1) trivial b h
          · split at hb
            · rcases List.mem_append.1 hb with h | h
              · exact blockSafe_closePara op hop b h
              · exact ih none k trivial b h
            · split at hb
              · refine ih _ k ?_ b hb
                intro p hp
                simp only [List.mem_singleton] at hp
                subst hp
                exact EmSafe_parseInlineMarkdown _
              · refine ih _ k ?_ b hb
                intro p hp
                rcases List.mem_append.1 hp with h | h
                · exact hop p h
                · simp only [List.mem_singleton] at h
                  subst h
                  exact EmSafe_parseInlineMarkdown _

/-- C1: for every input text and every block type, the renderer escapes
the literal text character for character (`escapeHTML`) before any inline
markup substitution is applied — `parseInlineMarkdown` is exactly the
four substitution passes run on the escaped text — and the inline
parsing injects only the fixed bold/italic emphasis markup, so markup
characters in the raw input never produce live structural elements in
any emitted block. -/
theorem c1_escaping_precedes_markup :
    (∀ t : List Char,
        parseInlineMarkdown t = inlineSubstitutions (escapeHTML t)) ∧
    (∀ t : List Char, EmSafe (parseInlineMarkdown t)) ∧
    (∀ (now : Nat) (text : String), ∀ b ∈ parseBlocks now text, blockSafe b) :=
  ⟨fun _ => rfl, EmSafe_parseInlineMarkdown,
    fun now _ => parseBlocksLoop_safe now _ none 0 trivial⟩

/-- Concrete instantiation of the block-safety half of C1. -/
theorem c1_escaping_precedes_markup_witness :
    blockSafe (Block.heading 1 ("Title").data) :=
  c1_escaping_precedes_markup.2.2 0 ("# Title")
    (Block.heading 1 ("Title").data) (by decide)

/-- C2 (refuted): evaluation of the renderer at the specified example.
The bold span is produced, but `*italic*` survives literally: the `\b`
placed before `\*` requires a word character immediately before the
asterisk, and the preceding space is not one, so no italic span is
emitted.  The underscore variant after a space does match, because `_`
itself is a word character and there the boundary assertion points the
other way — which shows the asterisk pattern is anchored outward, not
around the emphasized text. -/
theorem c2_italic_example_evaluation :
    parseMarkdownToHTML 0 ("**bold** and *italic*") =
      ("<p><strong>bold</strong> and *italic*</p>") ∧
    parseInlineMarkdown ("**bold** and *italic*").data =
      ("<strong>bold</strong> and *italic*").data ∧
    parseMarkdownToHTML 0 ("_italic_") = ("<p><em>italic</em></p>") ∧
    parseMarkdownToHTML 0 ("see a*italic*b here") =
      ("<p>see a<em>italic</em>b here</p>") := by
  refine ⟨by decide, by decide, by decide, by decide⟩

/-- C3: heading classification is longest-prefix-first on the trimmed
line — `### ` yields level 3; otherwise `## ` yields level 2; otherwise
`# ` yields level 1 — the remainder of the line is run through inline
parsing (and, in this source, escaped once more) to form the heading
text; `render("# Title")` yields the single Heading(1, "Title"), and a
literal `## heading` line yields Heading(2, "heading"), never a level-1
heading with text `# heading`. -/
theorem c3_heading_precedence :
    (∀ (now : Nat) (ls : List (List Char)) (op : Option (List (List Char)))
        (k : Nat) (l : List Char),
      ("### ").data.isPrefixOf (jsTrim l) = true →
        parseBlocksLoop now (l :: ls) op k =
          closePara op ++
            (Block.heading 3
              (escapeHTML (parseInlineMarkdown ((jsTrim l).drop 4))) ::
              parseBlocksLoop now ls none k)) ∧
    (∀ (now : Nat) (ls : List (List Char)) (op : Option (List (List Char)))
        (k : Nat) (l : List Char),
      ("### ").data.isPrefixOf (jsTrim l) = false →
      ("## ").data.isPrefixOf (jsTrim l) = true →
        parseBlocksLoop now (l :: ls) op k =
          closePara op ++
            (Block.heading 2
              (escapeHTML (parseInlineMarkdown ((jsTrim l).drop 3))) ::
              parseBlocksLoop now ls none k)) ∧
    (∀ (now : Nat) (ls : List (List Char)) (op : Option (List (List Char)))
        (k : Nat) (l : List Char),
      ("### ").data.isPrefixOf (jsTrim l) = false →
      ("## ").data.isPrefixOf (jsTrim l) = false →
      ("# ").data.isPrefixOf (jsTrim l) = true →
        parseBlocksLoop now (l :: ls) op k =
          closePara op ++
            (Block.heading 1
              (escapeHTML (parseInlineMarkdown ((jsTrim l).drop 2))) ::
              parseBlocksLoop now ls none k)) ∧
    (∀ now : Nat,
      parseBlocks now ("# Title") = [Block.heading 1 ("Title").data]) ∧
    (∀ now : Nat,
      parseBlocks now ("## heading") = [Block.heading 2 ("heading").data]) := by
  refine ⟨?_, ?_, ?_, fun now => rfl, fun now => rfl⟩
  · intro now ls op k l h3
    simp only [parseBlocksLoop, h3, if_true]
  · intro now ls op k l h3 h2
    simp only [parseBlocksLoop, h3, h2, if_true, Bool.false_eq_true,
      if_false]
  · intro now ls op k l h3 h2 h1
    simp only [parseBlocksLoop, h3, h2, h1, if_true, Bool.false_eq_true,
      if_false]

/-- Concrete instantiation of the level-3 heading law of C3. -/
theorem c3_heading_precedence_witness :
    parseBlocksLoop 0 [("### Hi").data] none 0 =
      closePara none ++
        (Block.heading 3
          (escapeHTML (parseInlineMarkdown ((jsTrim ("### Hi").data).drop 4))) ::
          parseBlocksLoop 0 [] none 0) :=
  c3_heading_precedence.1 0 [] none 0 ("### Hi").data (by decide)

theorem numberedMatch_head {l : List Char} {r : List Char}
    (h : numberedMatch l = some r) :
    ∃ c t, l = c :: t ∧ c.isDigit = true := by
  unfold numberedMatch at h
  cases l with
  | nil => simp at h
  | cons c t =>
    refine ⟨c, t, rfl, ?_⟩
    by_contra hc
    simp only [Bool.not_eq_true] at hc
    simp [List.takeWhile_cons, hc] at h

theorem not_hash_prefix_of_digit {c : Char} {t : List Char}
    (hc : c.isDigit = true) (p : List Char) (hp : p.head? = some '#') :
    p.isPrefixOf (c :: t) = false := by
  cases p with
  | nil => simp at hp
  | cons q qs =>
    simp only [List.head?_cons, Option.some.injEq] at hp
    subst hp
    by_contra hcontra
    simp only [Bool.not_eq_false, List.isPrefixOf_cons₂] at hcontra
    have : c = '#' := by
      have hb := hcontra
      rw [Bool.and_eq_true] at hb
      have h9 : '#' = c := by simpa [BEq.beq] using hb.1
      exact h9.symm
    subst this
    simp at hc

/-- C4: a trimmed line matching `^(\d+)[.)]\s+(.+)$` (both `.` and `)`
separators) closes any open paragraph and emits a StepItem whose content
is the inline parse of the rest, with the numeral prefix discarded and a
fresh identifier derived from the step counter; the heading branches can
never fire on such a line since it starts with a digit.  In particular
`render("1. Do X\n2. Do Y")` yields exactly two StepItems with contents
"Do X" and "Do Y" and distinct identifiers. -/
theorem c4_numbered_steps :
    (∀ (now : Nat) (ls : List (List Char)) (op : Option (List (List Char)))
        (k : Nat) (l rest : List Char),
      numberedMatch (jsTrim l) = some rest →
        parseBlocksLoop now (l :: ls) op k =
          closePara op ++
            (Block.step (stepId now k) (parseInlineMarkdown rest) ::
              parseBlocksLoop now ls none (k + 1))) ∧
    (∀ now : Nat,
      parseBlocks now ("1. Do X\n2. Do Y") =
        [Block.step (stepId now 0) ("Do X").data,
         Block.step (stepId now 1) ("Do Y").data]) ∧
    (∀ now : Nat, stepId now 0 ≠ stepId now 1) := by
  refine ⟨?_, fun now => rfl, ?_⟩
  · intro now ls op k l rest h
    obtain ⟨c, t, heq, hc⟩ := numberedMatch_head h
    have h3 : ("### ").data.isPrefixOf (jsTrim l) = false := by
      rw [heq]; exact not_hash_prefix_of_digit hc _ rfl
    have h2 : ("## ").data.isPrefixOf (jsTrim l) = false := by
      rw [heq]; exact not_hash_prefix_of_digit hc _ rfl
    have h1 : ("# ").data.isPrefixOf (jsTrim l) = false := by
      rw [heq]; exact not_hash_prefix_of_digit hc _ rfl
    simp only [parseBlocksLoop, h3, h2, h1, Bool.false_eq_true, if_false, h]
  · intro now h
    have hr := congrArg List.reverse h
    simp only [stepId, List.reverse_append] at hr
    rw [show (Nat.repr 0).data = ['0'] from rfl,
      show (Nat.repr 1).data = ['1'] from rfl] at hr
    simp at hr

/-- Concrete instantiation of the step-emission law of C4. -/
theorem c4_numbered_steps_witness :
    parseBlocksLoop 5 [("2) Go").data] none 4 =
      closePara none ++
        (Block.step (stepId 5 4) (parseInlineMarkdown ("Go").data) ::
          parseBlocksLoop 5 [] none 5) :=
  c4_numbered_steps.1 5 [] none 4 ("2) Go").data ("Go").data (by decide)

/-- C5: consecutive non-blank ordinary lines accumulate into the same
open Paragraph (first such line opens it, later ones append their inline
content after a line-break separator), a blank trimmed line closes the
open paragraph, and the paragraph still open after the last line is
closed at end of input; `render("para one\npara two\n\npara three")`
yields two Paragraphs, the first joining its two lines with `<br>`. -/
theorem c5_paragraph_accumulation :
    (∀ (now : Nat) (ls : List (List Char)) (k : Nat) (l : List Char),
      jsTrim l ≠ [] →
      ("### ").data.isPrefixOf (jsTrim l) = false →
      ("## ").data.isPrefixOf (jsTrim l) = false →
      ("# ").data.isPrefixOf (jsTrim l) = false →
      numberedMatch (jsTrim l) = none →
        parseBlocksLoop now (l :: ls) none k =
          parseBlocksLoop now ls (some [parseInlineMarkdown (jsTrim l)]) k) ∧
    (∀ (now : Nat) (ls : List (List Char)) (k : Nat) (l : List Char)
        (parts : List (List Char)),
      jsTrim l ≠ [] →
      ("### ").data.isPrefixOf (jsTrim l) = false →
      ("## ").data.isPrefixOf (jsTrim l) = false →
      ("# ").data.isPrefixOf (jsTrim l) = false →
      numberedMatch (jsTrim l) = none →
        parseBlocksLoop now (l :: ls) (some parts) k =
          parseBlocksLoop now ls
            (some (parts ++ [parseInlineMarkdown (jsTrim l)])) k) ∧
    (∀ (now : Nat) (ls : List (List Char))
        (op : Option (List (List Char))) (k : Nat) (l : List Char),
      jsTrim l = [] →
        parseBlocksLoop now (l :: ls) op k =
          closePara op ++ parseBlocksLoop now ls none k) ∧
    (∀ (now : Nat) (op : Option (List (List Char))) (k : Nat),
      parseBlocksLoop now [] op k = closePara op) ∧
    (∀ now : Nat,
      parseMarkdownToHTML now ("para one\npara two\n\npara three") =
        ("<p>para one<br>para two</p><p>para three</p>")) ∧
    (∀ now : Nat,
      parseBlocks now ("para one\npara two\n\npara three") =
        [Block.para [("para one").data, ("para two").data],
         Block.para [("para three").data]]) := by
  refine ⟨?_, ?_, ?_, fun now op k => rfl, fun now => rfl, fun now => rfl⟩
  · intro now ls k l hne h3 h2 h1 hnum
    simp only [parseBlocksLoop, h3, h2, h1, Bool.false_eq_true, if_false,
      hnum, hne, closePara, List.nil_append]
  · intro now ls k l parts hne h3 h2 h1 hnum
    simp only [parseBlocksLoop, h3, h2, h1, Bool.false_eq_true, if_false,
      hnum, hne, closePara, List.nil_append]
  · intro now ls op k l hb
    simp only [parseBlocksLoop, hb]
    rw [if_neg (by decide), if_neg (by decide), if_neg (by decide)]
    rw [show numberedMatch ([] : List Char) = none from rfl]
    simp

/-- Concrete instantiation of the paragraph-opening law of C5. -/
theorem c5_paragraph_accumulation_witness :
    parseBlocksLoop 0 [("hello").data] none 0 =
      parseBlocksLoop 0 [] (some [parseInlineMarkdown (jsTrim ("hello").data)]) 0 :=
  c5_paragraph_accumulation.1 0 [] 0 ("hello").data (by decide) (by decide)
    (by decide) (by decide) (by decide)

/-- JSON values as produced by `JSON.parse`.  A number keeps its source
lexeme: parse validity (the only thing the claims depend on) is exact,
while numeric re-normalization on output (for example `1.50` printing as
`1.5`) is not modelled. -/
inductive Json where
  | null : Json
  | bool (b : Bool) : Json
  | num (raw : List Char) : Json
  | str (s : List Char) : Json
  | arr (elems : List Json) : Json
  | obj (fields : List (List Char × Json)) : Json

/-- Insignificant whitespace of the JSON grammar. -/
def isJsonWs (c : Char) : Bool :=
  c = ' ' || c = '\t' || c = '\n' || c = '\r'

/-- Skip insignificant JSON whitespace. -/
def skipWs (l : List Char) : List Char :=
  l.dropWhile isJsonWs

/-- Value of one hexadecimal digit. -/
def hexVal (c : Char) : Option Nat :=
  if '0' ≤ c ∧ c ≤ '9' then some (c.toNat - 48)
  else if 'a' ≤ c ∧ c ≤ 'f' then some (c.toNat - 87)
  else if 'A' ≤ c ∧ c ≤ 'F' then some (c.toNat - 55)
  else none

/-- Character for one UTF-16 code unit from a `\uXXXX` escape.  A lone
surrogate, which JavaScript strings can hold but Unicode scalar values
cannot, is mapped to the replacement character; no claim depends on it. -/
def unitChar (u : Nat) : Char :=
  if 55296 ≤ u ∧ u ≤ 57343 then '�' else Char.ofNat u

/-- Body of a JSON string after the opening quote: decoded characters and
the remaining input after the closing quote.  Escapes follow the JSON
grammar; a `\uXXXX` high surrogate immediately followed by a `\uXXXX`
low surrogate combines into one code point, unescaped control characters
are rejected. -/
def parseStringBody : List Char → Option (List Char × List Char)
  | [] => none
  | '"' :: rest => some ([], rest)
  | '\\' :: 'u' :: a :: b :: c :: d :: '\\' :: 'u' :: e :: f :: g :: h :: rest =>
    match hexVal a, hexVal b, hexVal c, hexVal d with
    | some va, some vb, some vc, some vd =>
      let u1 := 4096 * va + 256 * vb + 16 * vc + vd
      match hexVal e, hexVal f, hexVal g, hexVal h with
      | some ve, some vf, some vg, some vh =>
        let u2 := 4096 * ve + 256 * vf + 16 * vg + vh
        if 55296 ≤ u1 ∧ u1 ≤ 56319 ∧ 56320 ≤ u2 ∧ u2 ≤ 57343 then
          match parseStringBody rest with
          | some (s, r) =>
            some (Char.ofNat (65536 + (u1 - 55296) * 1024 + (u2 - 56320)) :: s, r)
          | none => none
        else
          match parseStringBody ('\\' :: 'u' :: e :: f :: g :: h :: rest) with
          | some (s, r) => some (unitChar u1 :: s, r)
          | none => none
      | _, _, _, _ => none
    | _, _, _, _ => none
  | '\\' :: 'u' :: a :: b :: c :: d :: rest =>
    match hexVal a, hexVal b, hexVal c, hexVal d with
    | some va, some vb, some vc, some vd =>
      match parseStringBody rest with
      | some (s, r) =>
        some (unitChar (4096 * va + 256 * vb + 16 * vc + vd) :: s, r)
      | none => none
    | _, _, _, _ => none
  | ['\\'] => none
  | '\\' :: e :: rest =>
    match
      (if e = '"' then some '"'
       else if e = '\\' then some '\\'
       else if e = '/' then some '/'
       else if e = 'b' then some '\x08'
       else if e = 'f' then some '\x0c'
       else if e = 'n' then some '\n'
       else if e = 'r' then some '\r'
       else if e = 't' then some '\t'
       else none) with
    | some ch =>
      match parseStringBody rest with
      | some (s, r) => some (ch :: s, r)
      | none => none
    | none => none
  | c :: rest =>
    if c.toNat < 32 then none
    else
      match parseStringBody rest with
      | some (s, r) => some (c :: s, r)
      | none => none

/-- The fraction and exponent parts of a JSON number lexeme, appended to
the already-parsed integer part.  A `.` or `e` not followed by at least
one digit makes the whole number (and hence the containing document)
fail, as in the JSON grammar. -/
def numberTail (acc : List Char) (l : List Char) :
    Option (List Char × List Char) :=
  let fr : Option (List Char × List Char) :=
    match l with
    | '.' :: r =>
      let fd := r.takeWhile Char.isDigit
      if fd = [] then none
      else some (acc ++ '.' :: fd, r.dropWhile Char.isDigit)
    | _ => some (acc, l)
  match fr with
  | none => none
  | some (acc2, l2) =>
    match l2 with
    | e :: r =>
      if e = 'e' ∨ e = 'E' then
        let (es, r2) : List Char × List Char :=
          match r with
          | '+' :: rr => (['+'], rr)
          | '-' :: rr => (['-'], rr)
          | _ => ([], r)
        let ed := r2.takeWhile Char.isDigit
        if ed = [] then none
        else some (acc2 ++ e :: es ++ ed, r2.dropWhile Char.isDigit)
      else some (acc2, l2)
    | [] => some (acc2, l2)

/-- A JSON number lexeme: optional minus, `0` or a nonzero-led digit run,
then fraction and exponent. -/
def parseNumber (l : List Char) : Option (List Char × List Char) :=
  let sr : List Char × List Char :=
    match l with
    | '-' :: r => (['-'], r)
    | _ => ([], l)
  match sr.2 with
  | c :: r2 =>
    if c = '0' then numberTail (sr.1 ++ ['0']) r2
    else if c.isDigit then
      numberTail (sr.1 ++ c :: r2.takeWhile Char.isDigit)
        (r2.dropWhile Char.isDigit)
    else none
  | [] => none

/-- Insertion of a parsed object member: as in JavaScript objects, a
repeated key keeps its first position and takes the new value. -/
def insertField (fields : List (List Char × Json)) (key : List Char)
    (v : Json) : List (List Char × Json) :=
  if fields.any (fun f => f.1 = key) then
    fields.map (fun f => if f.1 = key then (key, v) else f)
  else fields ++ [(key, v)]

mutual

/-- One JSON value (after skipping leading whitespace) and the remaining
input.  `fuel` bounds the recursion; callers pass twice the input length
plus two, which cannot be exhausted since at most two recursive calls
are made per consumed input character. -/
def parseValue : Nat → List Char → Option (Json × List Char)
  | 0, _ => none
  | fuel + 1, l =>
    match skipWs l with
    | [] => none
    | c :: rest =>
      if c = 'n' then
        if rest.take 3 = ['u', 'l', 'l'] then some (Json.null, rest.drop 3)
        else none
      else if c = 't' then
        if rest.take 3 = ['r', 'u', 'e'] then
          some (Json.bool true, rest.drop 3)
        else none
      else if c = 'f' then
        if rest.take 4 = ['a', 'l', 's', 'e'] then
          some (Json.bool false, rest.drop 4)
        else none
      else if c = '"' then
        match parseStringBody rest with
        | some (s, r) => some (Json.str s, r)
        | none => none
      else if c = '[' then
        match skipWs rest with
        | ']' :: r2 => some (Json.arr [], r2)
        | _ => parseElems fuel rest []
      else if c = '\x7b' then
        match skipWs rest with
        | '\x7d' :: r2 => some (Json.obj [], r2)
        | _ => parseFields fuel rest []
      else if c = '-' ∨ c.isDigit then
        match parseNumber (c :: rest) with
        | some (raw, r) => some (Json.num raw, r)
        | none => none
      else none

/-- Array elements after `[`, separated by commas, ended by `]`. -/
def parseElems : Nat → List Char → List Json → Option (Json × List Char)
  | 0, _, _ => none
  | fuel + 1, l, acc =>
    match parseValue fuel l with
    | some (v, r) =>
      match skipWs r with
      | ',' :: r2 => parseElems fuel r2 (acc ++ [v])
      | ']' :: r2 => some (Json.arr (acc ++ [v]), r2)
      | _ => none
    | none => none

/-- Object members after an opening brace, separated by commas, ended by
a closing brace. -/
def parseFields : Nat → List Char → List (List Char × Json) →
    Option (Json × List Char)
  | 0, _, _ => none
  | fuel + 1, l, acc =>
    match skipWs l with
    | '"' :: r =>
      match parseStringBody r with
      | some (key, r2) =>
        match skipWs r2 with
        | ':' :: r3 =>
          match parseValue fuel r3 with
          | some (v, r4) =>
            match skipWs r4 with
            | ',' :: r5 => parseFields fuel r5 (insertField acc key v)
            | '\x7d' :: r5 => some (Json.obj (insertField acc key v), r5)
            | _ => none
          | none => none
        | _ => none
      | none => none
    | _ => none

end

/-- The JavaScript `JSON.parse`: one value surrounded by whitespace;
`none` models the `SyntaxError` exception path. -/
def jsonParse (s : String) : Option Json :=
  match parseValue (2 * s.data.length + 2) s.data with
  | some (v, r) => if skipWs r = [] then some v else none
  | none => none

/-- One hexadecimal digit character (lowercase), for string escapes. -/
def hexDigit (n : Nat) : Char :=
  if n < 10 then Char.ofNat (48 + n) else Char.ofNat (87 + n)

/-- Four-digit hexadecimal rendering of a code unit. -/
def hex4 (n : Nat) : List Char :=
  [hexDigit (n / 4096 % 16), hexDigit (n / 256 % 16), hexDigit (n / 16 % 16),
    hexDigit (n % 16)]

/-- JSON escaping of one character inside a quoted string, as performed
by `JSON.stringify`. -/
def escapeJsonChar (c : Char) : List Char :=
  if c = '"' then ['\\', '"']
  else if c = '\\' then ['\\', '\\']
  else if c = '\x08' then ['\\', 'b']
  else if c = '\x0c' then ['\\', 'f']
  else if c = '\n' then ['\\', 'n']
  else if c = '\r' then ['\\', 'r']
  else if c = '\t' then ['\\', 't']
  else if c.toNat < 32 then '\\' :: 'u' :: hex4 c.toNat
  else [c]

/-- A quoted JSON string literal. -/
def jsonQuote (s : List Char) : List Char :=
  '"' :: (s.map escapeJsonChar).flatten ++ ['"']

/-- Indentation used by `JSON.stringify(obj, null, 2)`. -/
def indentN (d : Nat) : List Char :=
  List.replicate (2 * d) ' '

mutual

/-- `JSON.stringify(v, null, 2)`: two-space pretty printing as used for
the context panel (numbers print their source lexeme, see `Json.num`). -/
def stringifyPretty : Json → Nat → List Char
  | Json.null, _ => ("null").data
  | Json.bool true, _ => ("true").data
  | Json.bool false, _ => ("false").data
  | Json.num raw, _ => raw
  | Json.str s, _ => jsonQuote s
  | Json.arr [], _ => ("[]").data
  | Json.arr (v :: vs), d =>
    ("[\n").data ++ stringifyArrItems (v :: vs) (d + 1) ++
      '\n' :: indentN d ++ ("]").data
  | Json.obj [], _ => ("\x7b\x7d").data
  | Json.obj (f :: fs), d =>
    ("\x7b\n").data ++ stringifyObjItems (f :: fs) (d + 1) ++
      '\n' :: indentN d ++ ("\x7d").data

/-- Array items of the pretty printer, one per line. -/
def stringifyArrItems : List Json → Nat → List Char
  | [], _ => []
  | [v], d => indentN d ++ stringifyPretty v d
  | v :: v2 :: vs, d =>
    indentN d ++ stringifyPretty v d ++ (",\n").data ++
      stringifyArrItems (v2 :: vs) d

/-- Object members of the pretty printer, one per line. -/
def stringifyObjItems : List (List Char × Json) → Nat → List Char
  | [], _ => []
  | [(k, v)], d =>
    indentN d ++ jsonQuote k ++ (": ").data ++ stringifyPretty v d
  | (k, v) :: f2 :: fs, d =>
    indentN d ++ jsonQuote k ++ (": ").data ++ stringifyPretty v d ++
      (",\n").data ++ stringifyObjItems (f2 :: fs) d

end

mutual

/-- The JavaScript string coercion of a parsed JSON value, as performed
by the template literal fallback for an assistant message without a
`text` field.  Arrays join their coerced elements with commas (null
elements become empty), plain objects print as `[object Object]`. -/
def jsToString : Json → List Char
  | Json.null => ("null").data
  | Json.bool true => ("true").data
  | Json.bool false => ("false").data
  | Json.num raw => raw
  | Json.str s => s
  | Json.obj _ => ("[object Object]").data
  | Json.arr xs => jsArrToString xs

/-- Comma joining of coerced array elements. -/
def jsArrToString : List Json → List Char
  | [] => []
  | [Json.null] => []
  | [v] => jsToString v
  | Json.null :: v2 :: vs => ',' :: jsArrToString (v2 :: vs)
  | v :: v2 :: vs => jsToString v ++ ',' :: jsArrToString (v2 :: vs)

end

/-- Whether the mantissa of a number lexeme is zero (`0`, `-0`, `0.00`,
`0e9`...): the only falsy JSON numbers. -/
def isZeroLexeme (raw : List Char) : Bool :=
  (raw.takeWhile (fun c => c != 'e' && c != 'E')).all
    (fun c => !c.isDigit || c = '0')

/-- JavaScript truthiness of a parsed JSON value. -/
def jsonTruthy : Json → Bool
  | Json.null => false
  | Json.bool b => b
  | Json.num raw => !(isZeroLexeme raw)
  | Json.str s => !(s.isEmpty)
  | Json.arr _ => true
  | Json.obj _ => true

/-- Property access on a parsed JSON value: `some` when the value is an
object carrying the key (`insertField` keeps keys unique), `none` for
the JavaScript `undefined` of any other access. -/
def getField (v : Json) (key : List Char) : Option Json :=
  match v with
  | Json.obj fields =>
    match fields.find? (fun f => f.1 = key) with
    | some f => some f.2
    | none => none
  | _ => none

/-- One transcript entry: role (`user` or `assistant`) and raw text.
The DOM rendering of an entry is `parseMarkdownToHTML` for assistant
messages and plain text content for user messages; the timestamp label
next to each entry is wall-clock display glue and is not modelled. -/
structure Message where
  role : String
  text : String
deriving DecidableEq, Repr

/-- The palette state touched by the controller functions: the transcript
(`#messages`), the input box (`#chatInput`), the status line, the context
panel with its optional screenshot preview, and the ordered log of
outbound `adsk.fusionSendData` calls as (action, payload) pairs. -/
structure PaletteState where
  messages : List Message
  chatInput : String
  status : String
  statusIsError : Bool
  contextText : String
  screenshotSrc : Option String
  bridgeCalls : List (String × String)
deriving DecidableEq, Repr

/-- `JSON.stringify({ text })` for the outbound user-query payload. -/
def jsonStringifyTextObj (t : String) : String :=
  String.mk (("\x7b\"text\":").data ++ jsonQuote t.data ++ ("\x7d").data)

/-- The `sendUserQuery` function of `palette.js`, up to the suspension
point of the asynchronous bridge call: trim the input; if nothing is
left, return with no effect at all; otherwise append the trimmed text as
a user message, clear the input box, set the sending status and forward
the JSON payload to the bridge.  The later status update depends on the
external bridge response and is outside the modelled core. -/
def sendUserQuery (st : PaletteState) : PaletteState :=
  let text := String.mk (jsTrim st.chatInput.data)
  if text = "" then st
  else
    { st with
      messages := st.messages ++ [Message.mk ("user") text],
      chatInput := "",
      status := "Sending to Fusion…",
      statusIsError := false,
      bridgeCalls :=
        st.bridgeCalls ++ [(("userQuery"), jsonStringifyTextObj text)] }

/-- The `updateContext` function of `palette.js`: try `JSON.parse`; on
success display the two-space pretty printing, on failure (the caught
`SyntaxError`) display the raw text verbatim.  Then update the screenshot
preview: shown only when the parsed value is truthy and carries a truthy
`screenshot.base64`, hidden otherwise (also on parse failure, where `obj`
stays null). -/
def updateContext (st : PaletteState) (jsonString : String) : PaletteState :=
  let parsed := jsonParse jsonString
  let ctext : String :=
    match parsed with
    | some v => String.mk (stringifyPretty v 0)
    | none => jsonString
  let shot : Option String :=
    match parsed with
    | none => none
    | some v =>
      if jsonTruthy v then
        match getField v (("screenshot").data) with
        | some sc =>
          if jsonTruthy sc then
            match getField sc (("base64").data) with
            | some b =>
              if jsonTruthy b then
                some (String.mk
                  (("data:image/png;base64,").data ++ jsToString b))
              else none
            | none => none
          else none
        | none => none
      else none
  { st with contextText := ctext, screenshotSrc := shot }

/-- The `window.fusionJavaScriptHandler.handle` function of `palette.js`:
dispatch on the action, return `"OK"` on the known paths (the `catch`
turns a thrown `SyntaxError` or rendering type error into an error
status, still returning `"OK"`), and return the literal unexpected-
command string for unknown actions.  For `assistantMessage`, the parsed
`msg.text` is appended when it is a string; when it is absent or null
the whole value is string-coerced (`msg.text ?? template`); a present
non-string `text` makes the markdown renderer throw inside the `try`
(splitting a non-string), which the `catch` converts to an error status
with no transcript change. -/
def fusionHandle (st : PaletteState) (action data : String) :
    PaletteState × String :=
  if action = "assistantMessage" then
    match jsonParse data with
    | none =>
      ({ st with
          status := "Error handling message from Fusion: " ++ action,
          statusIsError := true }, "OK")
    | some Json.null =>
      ({ st with
          status := "Error handling message from Fusion: " ++ action,
          statusIsError := true }, "OK")
    | some v =>
      match getField v (("text").data) with
      | some (Json.str s) =>
        ({ st with
            messages := st.messages ++ [Message.mk ("assistant") (String.mk s)],
            status := "Ready.",
            statusIsError := false }, "OK")
      | some Json.null =>
        ({ st with
            messages :=
              st.messages ++ [Message.mk ("assistant") (String.mk (jsToString v))],
            status := "Ready.",
            statusIsError := false }, "OK")
      | some _ =>
        ({ st with
            status := "Error handling message from Fusion: " ++ action,
            statusIsError := true }, "OK")
      | none =>
        ({ st with
            messages :=
              st.messages ++ [Message.mk ("assistant") (String.mk (jsToString v))],
            status := "Ready.",
            statusIsError := false }, "OK")
  else if action = "contextUpdate" then
    (updateContext st data, "OK")
  else if action = "debugger" then
    (st, "OK")
  else
    (st, "Unexpected command type: " ++ action)

/-- C6: for an input that trims to nothing, `sendUserQuery` is a complete
no-op — no message is appended, no bridge call is issued, nothing at all
changes; for an input with non-blank content it appends the trimmed text
as a user message, clears the input box and forwards the JSON payload to
the bridge. -/
theorem c6_submit_user_text (st : PaletteState) :
    (String.mk (jsTrim st.chatInput.data) = "" → sendUserQuery st = st) ∧
    (String.mk (jsTrim st.chatInput.data) ≠ "" →
      (sendUserQuery st).messages =
          st.messages ++
            [Message.mk ("user") (String.mk (jsTrim st.chatInput.data))] ∧
        (sendUserQuery st).chatInput = "" ∧
        (sendUserQuery st).bridgeCalls =
          st.bridgeCalls ++ [(("userQuery"),
            jsonStringifyTextObj (String.mk (jsTrim st.chatInput.data)))]) := by
  constructor
  · intro h
    simp [sendUserQuery, h]
  · intro h
    simp [sendUserQuery, h]

/-- Concrete instantiations of both halves of C6: a whitespace-only input
leaves the state untouched; a real input appends exactly one user
message and one bridge call. -/
theorem c6_submit_user_text_witness :
    sendUserQuery (PaletteState.mk [] ("  \t ") ("Ready.") false "" none []) =
        PaletteState.mk [] ("  \t ") ("Ready.") false "" none [] ∧
      (sendUserQuery
          (PaletteState.mk [] ("hello") ("Ready.") false "" none [])).messages =
        [Message.mk ("user") ("hello")] :=
  ⟨(c6_submit_user_text _).1 (by decide),
    ((c6_submit_user_text
        (PaletteState.mk [] ("hello") ("Ready.") false "" none [])).2
      (by decide)).1⟩

/-- C7: a payload that `JSON.parse` rejects is displayed verbatim in the
context panel rather than dropped — `updateContext` falls back to the raw
string and hides the screenshot preview — and the inbound handler still
returns the `"OK"` acknowledgement, since the parse failure is caught
inside `updateContext` and no exception propagates. -/
theorem c7_context_fallback (st : PaletteState) (s : String)
    (h : jsonParse s = none) :
    (updateContext st s).contextText = s ∧
      (updateContext st s).screenshotSrc = none ∧
      fusionHandle st ("contextUpdate") s = (updateContext st s, "OK") := by
  refine ⟨?_, ?_, by simp [fusionHandle]⟩
  · simp [updateContext, h]
  · simp [updateContext, h]

/-- Concrete instantiation of C7 at the non-JSON payload `"not json"`. -/
theorem c7_context_fallback_witness :
    (updateContext
        (PaletteState.mk [] "" ("Ready.") false "" none []) ("not json")).contextText =
      ("not json") :=
  (c7_context_fallback (PaletteState.mk [] "" ("Ready.") false "" none [])
    ("not json") rfl).1

/-- C8: an inbound action outside the set assistantMessage,
contextUpdate, debugger changes nothing and returns the literal
unexpected-command string with the action name interpolated. -/
theorem c8_unknown_action (st : PaletteState) (action data : String)
    (h1 : action ≠ "assistantMessage") (h2 : action ≠ "contextUpdate")
    (h3 : action ≠ "debugger") :
    fusionHandle st action data =
      (st, "Unexpected command type: " ++ action) := by
  simp [fusionHandle, h1, h2, h3]

/-- Concrete instantiation of C8 at the unknown action `"frobnicate"`. -/
theorem c8_unknown_action_witness :
    fusionHandle (PaletteState.mk [] "" "" false "" none [])
        ("frobnicate") ("x") =
      (PaletteState.mk [] "" "" false "" none [],
        "Unexpected command type: frobnicate") :=
  c8_unknown_action (PaletteState.mk [] "" "" false "" none [])
    ("frobnicate") ("x") (by decide) (by decide) (by decide)

theorem dropWhile_idem (p : Char → Bool) (l : List Char) :
    (l.dropWhile p).dropWhile p = l.dropWhile p := by
  induction l with
  | nil => simp
  | cons c t ih =>
    by_cases pc : p c
    · simp [List.dropWhile_cons, pc, ih]
    · simp [List.dropWhile_cons, pc]

theorem dropWhile_eq_self_of_append {p : Char → Bool} :
    ∀ {y x : List Char}, (y ++ x).dropWhile p = y ++ x →
      y.dropWhile p = y := by
  intro y x h
  cases y with
  | nil => simp
  | cons c t =>
    by_cases pc : p c
    · exfalso
      rw [List.cons_append, List.dropWhile_cons, if_pos pc] at h
      have hlen := congrArg List.length h
      have := length_dropWhile_le p (t ++ x)
      simp only [List.length_cons] at hlen
      omega
    · simp [List.dropWhile_cons, pc]

theorem jsTrim_idem (l : List Char) : jsTrim (jsTrim l) = jsTrim l := by
  unfold jsTrim
  set p := isJsSpace
  set m := l.dropWhile p with hm
  set z := (m.reverse.dropWhile p).reverse with hz
  have hsplit : z ++ (m.reverse.takeWhile p).reverse = m := by
    rw [hz, ← List.reverse_append, List.takeWhile_append_dropWhile,
      List.reverse_reverse]
  have hmfix : m.dropWhile p = m := by rw [hm]; exact dropWhile_idem p l
  have hzfix : z.dropWhile p = z := by
    apply dropWhile_eq_self_of_append (x := (m.reverse.takeWhile p).reverse)
    rw [hsplit]
    exact hmfix
  rw [hzfix, hz, List.reverse_reverse, dropWhile_idem]

theorem mem_dropWhile_subset {p : Char → Bool} {c : Char} :
    ∀ {l : List Char}, c ∈ l.dropWhile p → c ∈ l := by
  intro l h
  induction l with
  | nil => simpa using h
  | cons a t ih =>
    by_cases pa : p a
    · rw [List.dropWhile_cons, if_pos pa] at h
      exact List.mem_cons_of_mem a (ih h)
    · rw [List.dropWhile_cons, if_neg pa] at h
      exact h

theorem mem_jsTrim_subset {c : Char} {l : List Char}
    (h : c ∈ jsTrim l) : c ∈ l := by
  unfold jsTrim at h
  rw [List.mem_reverse] at h
  have h2 := mem_dropWhile_subset h
  rw [List.mem_reverse] at h2
  exact mem_dropWhile_subset h2

theorem splitNlAux_no_nl : ∀ l : List Char,
    '\n' ∉ (splitNlAux l).1 ∧ ∀ x ∈ (splitNlAux l).2, '\n' ∉ x := by
  intro l
  induction l with
  | nil => simp [splitNlAux]
  | cons c rest ih =>
    by_cases hc : c = '\n'
    · simp only [splitNlAux, hc, if_true]
      refine ⟨by simp, ?_⟩
      intro x hx
      rcases List.mem_cons.1 hx with rfl | hx
      · exact ih.1
      · exact ih.2 x hx
    · simp only [splitNlAux, hc, if_false]
      refine ⟨?_, ih.2⟩
      intro hmem
      rcases List.mem_cons.1 hmem with h | h
      · exact hc h.symm
      · exact ih.1 h

theorem splitNlAux_of_no_nl : ∀ {l : List Char}, '\n' ∉ l →
    splitNlAux l = (l, []) := by
  intro l h
  induction l with
  | nil => rfl
  | cons c t ih =>
    have hc : ¬c = '\n' := fun hcc => h (by simp [hcc])
    simp only [splitNlAux, hc, if_false,
      ih (fun hmem => h (List.mem_cons_of_mem c hmem))]

theorem splitNlAux_append_nl {l : List Char} (h : '\n' ∉ l)
    (s : List Char) :
    splitNlAux (l ++ '\n' :: s) =
      (l, (splitNlAux s).1 :: (splitNlAux s).2) := by
  induction l with
  | nil => simp [splitNlAux]
  | cons c t ih =>
    have hc : ¬c = '\n' := fun hcc => h (by simp [hcc])
    simp only [List.cons_append, splitNlAux, hc, if_false, List.append_eq]
    rw [ih (fun hmem => h (List.mem_cons_of_mem c hmem))]

theorem splitNl_join : ∀ ls : List (List Char), (∀ x ∈ ls, '\n' ∉ x) →
    ls ≠ [] → splitNl ((ls.intersperse ['\n']).flatten) = ls := by
  intro ls
  induction ls with
  | nil => intro _ h; exact absurd rfl h
  | cons l rest ih =>
    intro hnl _
    cases rest with
    | nil =>
      simp only [List.intersperse_single, List.flatten_cons,
        List.flatten_nil, List.append_nil, splitNl,
        splitNlAux_of_no_nl (hnl l (by simp))]
    | cons l2 rest2 =>
      have hjoin : ((l :: l2 :: rest2).intersperse ['\n']).flatten =
          l ++ '\n' :: ((l2 :: rest2).intersperse ['\n']).flatten := by
        simp [List.intersperse_cons₂]
      rw [hjoin]
      have hrec := ih (fun x hx => hnl x (by simp [hx])) (by simp)
      have haux := splitNlAux_append_nl (hnl l (by simp))
        (((l2 :: rest2).intersperse ['\n']).flatten)
      have h1 : (splitNlAux
          (l ++ '\n' :: ((l2 :: rest2).intersperse ['\n']).flatten)).1 = l := by
        rw [haux]
      have h2 : (splitNlAux
          (l ++ '\n' :: ((l2 :: rest2).intersperse ['\n']).flatten)).2 =
          (splitNlAux (((l2 :: rest2).intersperse ['\n']).flatten)).1 ::
            (splitNlAux (((l2 :: rest2).intersperse ['\n']).flatten)).2 := by
        rw [haux]
      simp only [splitNl] at hrec ⊢
      rw [h1, h2, List.cons.injEq]
      exact ⟨rfl, hrec⟩

theorem renderLoop_map_jsTrim (now : Nat) :
    ∀ (ls : List (List Char)) (inP : Bool) (k : Nat),
      renderLoop now (ls.map jsTrim) inP k = renderLoop now ls inP k := by
  intro ls
  induction ls with
  | nil => intro inP k; rfl
  | cons l rest ih =>
    intro inP k
    simp only [List.map_cons, renderLoop, jsTrim_idem, ih]

/-- Whole-text line trimming: every line replaced by its trimmed form. -/
def trimLines (t : String) : String :=
  String.mk (((splitNl t.data).map jsTrim).intersperse ['\n']).flatten

/-- C10: each line is trimmed before classification and before inclusion
in the output, so rendering is invariant under trimming every line of
the input; in particular indented heading and numbered-step markers are
recognized, a whitespace-only line closes an open paragraph, and block
contents never carry leading or trailing line whitespace. -/
theorem c10_line_trimming :
    (∀ (now : Nat) (t : String),
      parseMarkdownToHTML now t = parseMarkdownToHTML now (trimLines t)) ∧
    (∀ now : Nat,
      parseBlocks now ("   # Indented") = [Block.heading 1 ("Indented").data]) ∧
    (∀ now : Nat,
      parseBlocks now ("  1. Step") =
        [Block.step (stepId now 0) ("Step").data]) ∧
    (∀ now : Nat,
      parseBlocks now ("a\n \t \nb") =
        [Block.para [['a']], Block.para [['b']]]) := by
  refine ⟨?_, fun now => rfl, fun now => rfl, fun now => rfl⟩
  intro now t
  unfold parseMarkdownToHTML
  have hlines : splitNl (trimLines t).data =
      (splitNl t.data).map jsTrim := by
    show splitNl (((splitNl t.data).map jsTrim).intersperse ['\n']).flatten =
      (splitNl t.data).map jsTrim
    apply splitNl_join
    · intro x hx
      rcases List.mem_map.1 hx with ⟨y, hy, rfl⟩
      intro hmem
      have hyn : '\n' ∈ y := mem_jsTrim_subset hmem
      have hno := splitNlAux_no_nl t.data
      simp only [splitNl] at hy
      rcases List.mem_cons.1 hy with rfl | hy2
      · exact hno.1 hyn
      · exact hno.2 y hy2 hyn
    · simp [splitNl]
  rw [hlines, renderLoop_map_jsTrim]

/-- Decimal digit characters of a natural number, most significant
first: the reference rendering that `Nat.repr` computes through its
fuelled core loop. -/
def natChars (n : Nat) : List Char :=
  if n < 10 then [Nat.digitChar n]
  else natChars (n / 10) ++ [Nat.digitChar (n % 10)]
termination_by n
decreasing_by
  simp_wf
  omega

theorem toDigitsCore_eq_natChars :
    ∀ (fuel n : Nat) (acc : List Char), n < fuel →
      Nat.toDigitsCore 10 fuel n acc = natChars n ++ acc := by
  intro fuel
  induction fuel with
  | zero => intro n acc h; omega
  | succ f ih =>
    intro n acc h
    by_cases h0 : n / 10 = 0
    · have hn : n < 10 := by omega
      rw [show Nat.toDigitsCore 10 (f + 1) n acc =
          Nat.digitChar (n % 10) :: acc from by
        simp [Nat.toDigitsCore, h0]]
      rw [natChars, if_pos hn, Nat.mod_eq_of_lt hn]
      rfl
    · have hlt : n / 10 < f := by
        have h1 : n / 10 < n := Nat.div_lt_self (by omega) (by omega)
        omega
      rw [show Nat.toDigitsCore 10 (f + 1) n acc =
          Nat.toDigitsCore 10 f (n / 10) (Nat.digitChar (n % 10) :: acc)
        from by simp [Nat.toDigitsCore, h0]]
      rw [ih (n / 10) (Nat.digitChar (n % 10) :: acc) hlt]
      rw [show natChars n = natChars (n / 10) ++ [Nat.digitChar (n % 10)]
        from by rw [natChars, if_neg (by omega)]]
      simp [List.append_assoc]

theorem repr_data_eq_natChars (n : Nat) : (Nat.repr n).data = natChars n := by
  show (Nat.toDigits 10 n).asString.data = natChars n
  rw [Nat.toDigits, toDigitsCore_eq_natChars (n + 1) n [] (by omega)]
  simp [List.asString]

/-- Decimal reading of a digit-character list. -/
def digitsVal (l : List Char) : Nat :=
  l.foldl (fun a c => 10 * a + (c.toNat - 48)) 0

theorem digitChar_val {d : Nat} (h : d < 10) :
    (Nat.digitChar d).toNat - 48 = d := by
  interval_cases d <;> rfl

theorem digitChar_isDigit {d : Nat} (h : d < 10) :
    (Nat.digitChar d).isDigit = true := by
  interval_cases d <;> rfl

theorem digitsVal_natChars (n : Nat) : digitsVal (natChars n) = n := by
  induction n using Nat.strong_induction_on with
  | _ n ih =>
    by_cases h : n < 10
    · rw [natChars, if_pos h]
      simp [digitsVal, digitChar_val h]
    · rw [natChars, if_neg h]
      have h1 := ih (n / 10) (Nat.div_lt_self (by omega) (by omega))
      rw [digitsVal, List.foldl_append]
      rw [show List.foldl (fun a c => 10 * a + (c.toNat - 48)) 0
          (natChars (n / 10)) = n / 10 from h1]
      simp [List.foldl, digitChar_val (Nat.mod_lt n (by omega))]
      omega

theorem repr_data_inj {a b : Nat}
    (h : (Nat.repr a).data = (Nat.repr b).data) : a = b := by
  rw [repr_data_eq_natChars, repr_data_eq_natChars] at h
  have := congrArg digitsVal h
  rwa [digitsVal_natChars, digitsVal_natChars] at this

theorem natChars_all_digits (n : Nat) :
    ∀ c ∈ natChars n, c.isDigit = true := by
  induction n using Nat.strong_induction_on with
  | _ n ih =>
    by_cases h : n < 10
    · rw [natChars, if_pos h]
      intro c hc
      simp only [List.mem_singleton] at hc
      subst hc
      exact digitChar_isDigit h
    · rw [natChars, if_neg h]
      intro c hc
      rcases List.mem_append.1 hc with h2 | h2
      · exact ih (n / 10) (Nat.div_lt_self (by omega) (by omega)) c h2
      · simp only [List.mem_singleton] at h2
        subst h2
        exact digitChar_isDigit (Nat.mod_lt n (by omega))

theorem repr_no_dash (n : Nat) : ∀ c ∈ (Nat.repr n).data, c ≠ '-' := by
  intro c hc
  rw [repr_data_eq_natChars] at hc
  have hd := natChars_all_digits n c hc
  intro h
  subst h
  simp [Char.isDigit] at hd

theorem append_sep_inj {sep : Char} :
    ∀ {a b x y : List Char}, (∀ c ∈ a, c ≠ sep) → (∀ c ∈ b, c ≠ sep) →
      a ++ sep :: x = b ++ sep :: y → a = b ∧ x = y := by
  intro a
  induction a with
  | nil =>
    intro b x y _ hb h
    cases b with
    | nil => simpa using h
    | cons q qs =>
      exfalso
      simp only [List.nil_append, List.cons_append, List.cons.injEq] at h
      exact hb q (by simp) h.1.symm
  | cons p ps ih =>
    intro b x y ha hb h
    cases b with
    | nil =>
      exfalso
      simp only [List.nil_append, List.cons_append, List.cons.injEq] at h
      exact ha p (by simp) h.1
    | cons q qs =>
      simp only [List.cons_append, List.cons.injEq] at h
      obtain ⟨rfl, h2⟩ := h
      have hrec := ih (fun c hc => ha c (by simp [hc]))
        (fun c hc => hb c (by simp [hc])) h2
      exact ⟨by rw [hrec.1], hrec.2⟩

/-- The step identifier is injective as a function of the timestamp and
the counter: its two decimal components are recovered exactly. -/
theorem stepId_inj {n1 k1 n2 k2 : Nat} (h : stepId n1 k1 = stepId n2 k2) :
    n1 = n2 ∧ k1 = k2 := by
  unfold stepId at h
  rw [List.append_assoc, List.append_assoc, List.append_assoc,
    List.append_assoc] at h
  have h2 := List.append_cancel_left h
  rw [show (("-").data : List Char) = ['-'] from rfl] at h2
  simp only [List.cons_append, List.nil_append] at h2
  have h3 := append_sep_inj (repr_no_dash n1) (repr_no_dash n2) h2
  exact ⟨repr_data_inj h3.1, repr_data_inj h3.2⟩

/-- A block with its step identifier blanked: the part of the output
allowed to vary between renders of identical input. -/
def stripIds : Block → Block
  | Block.step _ content => Block.step [] content
  | b => b

/-- The step identifiers of a block sequence, in display order. -/
def stepIdsOf (bs : List Block) : List (List Char) :=
  bs.filterMap fun b =>
    match b with
    | Block.step sid _ => some sid
    | _ => none

/-- Whether a line is classified as a numbered step by the renderer: no
heading prefix on the trimmed line, and the numbered pattern matches. -/
def isStepLine (l : List Char) : Bool :=
  !(("### ").data.isPrefixOf (jsTrim l)) &&
  !(("## ").data.isPrefixOf (jsTrim l)) &&
  !(("# ").data.isPrefixOf (jsTrim l)) &&
  (numberedMatch (jsTrim l)).isSome

theorem stepIdsOf_closePara (op : Option (List (List Char))) :
    stepIdsOf (closePara op) = [] := by
  cases op <;> rfl

theorem blocksLoop_h3 (now : Nat) (ls : List (List Char))
    (op : Option (List (List Char))) (k : Nat) (l : List Char)
    (h3 : ("### ").data.isPrefixOf (jsTrim l) = true) :
    parseBlocksLoop now (l :: ls) op k =
      closePara op ++
        (Block.heading 3 (escapeHTML (parseInlineMarkdown ((jsTrim l).drop 4))) ::
          parseBlocksLoop now ls none k) := by
  simp only [parseBlocksLoop, h3, if_true]

theorem blocksLoop_h2 (now : Nat) (ls : List (List Char))
    (op : Option (List (List Char))) (k : Nat) (l : List Char)
    (h3 : ("### ").data.isPrefixOf (jsTrim l) = false)
    (h2 : ("## ").data.isPrefixOf (jsTrim l) = true) :
    parseBlocksLoop now (l :: ls) op k =
      closePara op ++
        (Block.heading 2 (escapeHTML (parseInlineMarkdown ((jsTrim l).drop 3))) ::
          parseBlocksLoop now ls none k) := by
  simp only [parseBlocksLoop, h3, h2, if_true, Bool.false_eq_true, if_false]

theorem blocksLoop_h1 (now : Nat) (ls : List (List Char))
    (op : Option (List (List Char))) (k : Nat) (l : List Char)
    (h3 : ("### ").data.isPrefixOf (jsTrim l) = false)
    (h2 : ("## ").data.isPrefixOf (jsTrim l) = false)
    (h1 : ("# ").data.isPrefixOf (jsTrim l) = true) :
    parseBlocksLoop now (l :: ls) op k =
      closePara op ++
        (Block.heading 1 (escapeHTML (parseInlineMarkdown ((jsTrim l).drop 2))) ::
          parseBlocksLoop now ls none k) := by
  simp only [parseBlocksLoop, h3, h2, h1, if_true, Bool.false_eq_true,
    if_false]

theorem blocksLoop_step (now : Nat) (ls : List (List Char))
    (op : Option (List (List Char))) (k : Nat) (l rest : List Char)
    (h3 : ("### ").data.isPrefixOf (jsTrim l) = false)
    (h2 : ("## ").data.isPrefixOf (jsTrim l) = false)
    (h1 : ("# ").data.isPrefixOf (jsTrim l) = false)
    (hnum : numberedMatch (jsTrim l) = some rest) :
    parseBlocksLoop now (l :: ls) op k =
      closePara op ++
        (Block.step (stepId now k) (parseInlineMarkdown rest) ::
          parseBlocksLoop now ls none (k + 1)) := by
  simp only [parseBlocksLoop, h3, h2, h1, Bool.false_eq_true, if_false, hnum]

theorem blocksLoop_blank (now : Nat) (ls : List (List Char))
    (op : Option (List (List Char))) (k : Nat) (l : List Char)
    (hb : jsTrim l = []) :
    parseBlocksLoop now (l :: ls) op k =
      closePara op ++ parseBlocksLoop now ls none k := by
  simp only [parseBlocksLoop, hb]
  rw [if_neg (by decide), if_neg (by decide), if_neg (by decide)]
  rw [show numberedMatch ([] : List Char) = none from rfl]
  simp

theorem blocksLoop_para_none (now : Nat) (ls : List (List Char)) (k : Nat)
    (l : List Char) (hne : jsTrim l ≠ [])
    (h3 : ("### ").data.isPrefixOf (jsTrim l) = false)
    (h2 : ("## ").data.isPrefixOf (jsTrim l) = false)
    (h1 : ("# ").data.isPrefixOf (jsTrim l) = false)
    (hnum : numberedMatch (jsTrim l) = none) :
    parseBlocksLoop now (l :: ls) none k =
      parseBlocksLoop now ls (some [parseInlineMarkdown (jsTrim l)]) k := by
  simp only [parseBlocksLoop, h3, h2, h1, Bool.false_eq_true, if_false,
    hnum, hne, closePara, List.nil_append]

theorem blocksLoop_para_some (now : Nat) (ls : List (List Char)) (k : Nat)
    (l : List Char) (parts : List (List Char)) (hne : jsTrim l ≠ [])
    (h3 : ("### ").data.isPrefixOf (jsTrim l) = false)
    (h2 : ("## ").data.isPrefixOf (jsTrim l) = false)
    (h1 : ("# ").data.isPrefixOf (jsTrim l) = false)
    (hnum : numberedMatch (jsTrim l) = none) :
    parseBlocksLoop now (l :: ls) (some parts) k =
      parseBlocksLoop now ls
        (some (parts ++ [parseInlineMarkdown (jsTrim l)])) k := by
  simp only [parseBlocksLoop, h3, h2, h1, Bool.false_eq_true, if_false,
    hnum, hne, closePara, List.nil_append]

theorem stepIdsOf_append (a b : List Block) :
    stepIdsOf (a ++ b) = stepIdsOf a ++ stepIdsOf b := by
  simp [stepIdsOf, List.filterMap_append]

theorem stepIdsOf_heading (lvl : Nat) (c : List Char) (bs : List Block) :
    stepIdsOf (Block.heading lvl c :: bs) = stepIdsOf bs := rfl

theorem stepIdsOf_step (sid c : List Char) (bs : List Block) :
    stepIdsOf (Block.step sid c :: bs) = sid :: stepIdsOf bs := rfl

theorem parseBlocksLoop_stripIds (n1 n2 : Nat) :
    ∀ (ls : List (List Char)) (op : Option (List (List Char))) (k : Nat),
      (parseBlocksLoop n1 ls op k).map stripIds =
        (parseBlocksLoop n2 ls op k).map stripIds := by
  intro ls
  induction ls with
  | nil => intro op k; rfl
  | cons l ls ih =>
    intro op k
    by_cases h3 : ("### ").data.isPrefixOf (jsTrim l)
    · rw [blocksLoop_h3 n1 ls op k l h3, blocksLoop_h3 n2 ls op k l h3]
      simp [ih]
    · have e3 : ("### ").data.isPrefixOf (jsTrim l) = false :=
        Bool.eq_false_iff.mpr h3
      by_cases h2 : ("## ").data.isPrefixOf (jsTrim l)
      · rw [blocksLoop_h2 n1 ls op k l e3 h2, blocksLoop_h2 n2 ls op k l e3 h2]
        simp [ih]
      · have e2 : ("## ").data.isPrefixOf (jsTrim l) = false :=
          Bool.eq_false_iff.mpr h2
        by_cases h1 : ("# ").data.isPrefixOf (jsTrim l)
        · rw [blocksLoop_h1 n1 ls op k l e3 e2 h1,
            blocksLoop_h1 n2 ls op k l e3 e2 h1]
          simp [ih]
        · have e1 : ("# ").data.isPrefixOf (jsTrim l) = false :=
            Bool.eq_false_iff.mpr h1
          cases hnum : numberedMatch (jsTrim l) with
          | some rest =>
            rw [blocksLoop_step n1 ls op k l rest e3 e2 e1 hnum,
              blocksLoop_step n2 ls op k l rest e3 e2 e1 hnum]
            simp [stripIds, ih]
          | none =>
            by_cases hb : jsTrim l = []
            · rw [blocksLoop_blank n1 ls op k l hb,
                blocksLoop_blank n2 ls op k l hb]
              simp [ih]
            · cases op with
              | none =>
                rw [blocksLoop_para_none n1 ls k l hb e3 e2 e1 hnum,
                  blocksLoop_para_none n2 ls k l hb e3 e2 e1 hnum]
                exact ih _ _
              | some parts =>
                rw [blocksLoop_para_some n1 ls k l parts hb e3 e2 e1 hnum,
                  blocksLoop_para_some n2 ls k l parts hb e3 e2 e1 hnum]
                exact ih _ _

theorem isStepLine_of_blank {l : List Char} (hb : jsTrim l = []) :
    isStepLine l = false := by
  unfold isStepLine
  rw [hb]
  decide

theorem parseBlocksLoop_stepIds (now : Nat) :
    ∀ (ls : List (List Char)) (op : Option (List (List Char))) (k : Nat),
      stepIdsOf (parseBlocksLoop now ls op k) =
        (List.range' k (ls.countP isStepLine)).map (stepId now) := by
  intro ls
  induction ls with
  | nil =>
    intro op k
    rw [show parseBlocksLoop now [] op k = closePara op from rfl,
      stepIdsOf_closePara]
    simp
  | cons l ls ih =>
    intro op k
    rw [List.countP_cons]
    by_cases h3 : ("### ").data.isPrefixOf (jsTrim l)
    · have hsl : isStepLine l = false := by simp [isStepLine, h3]
      rw [blocksLoop_h3 now ls op k l h3, stepIdsOf_append,
        stepIdsOf_closePara, stepIdsOf_heading, hsl]
      simp [ih]
    · have e3 : ("### ").data.isPrefixOf (jsTrim l) = false :=
        Bool.eq_false_iff.mpr h3
      by_cases h2 : ("## ").data.isPrefixOf (jsTrim l)
      · have hsl : isStepLine l = false := by simp [isStepLine, h2]
        rw [blocksLoop_h2 now ls op k l e3 h2, stepIdsOf_append,
          stepIdsOf_closePara, stepIdsOf_heading, hsl]
        simp [ih]
      · have e2 : ("## ").data.isPrefixOf (jsTrim l) = false :=
          Bool.eq_false_iff.mpr h2
        by_cases h1 : ("# ").data.isPrefixOf (jsTrim l)
        · have hsl : isStepLine l = false := by simp [isStepLine, h1]
          rw [blocksLoop_h1 now ls op k l e3 e2 h1, stepIdsOf_append,
            stepIdsOf_closePara, stepIdsOf_heading, hsl]
          simp [ih]
        · have e1 : ("# ").data.isPrefixOf (jsTrim l) = false :=
            Bool.eq_false_iff.mpr h1
          cases hnum : numberedMatch (jsTrim l) with
          | some rest =>
            have hsl : isStepLine l = true := by
              simp [isStepLine, e3, e2, e1, hnum]
            rw [blocksLoop_step now ls op k l rest e3 e2 e1 hnum,
              stepIdsOf_append, stepIdsOf_closePara, stepIdsOf_step, hsl]
            simp [ih, List.range'_succ]
          | none =>
            by_cases hb : jsTrim l = []
            · have hsl := isStepLine_of_blank hb
              rw [blocksLoop_blank now ls op k l hb, stepIdsOf_append,
                stepIdsOf_closePara, hsl]
              simp [ih]
            · have hsl : isStepLine l = false := by
                simp [isStepLine, hnum]
              cases op with
              | none =>
                rw [blocksLoop_para_none now ls k l hb e3 e2 e1 hnum, hsl]
                simp [ih]
              | some parts =>
                rw [blocksLoop_para_some now ls k l parts hb e3 e2 e1 hnum,
                  hsl]
                simp [ih]

/-- C9 (refuted as stated): the step counter restarts at zero on every
render call while the timestamp component has only millisecond
resolution, so two render calls within the same millisecond produce the
same identifier — here two renders at `Date.now() = 1000` both label
their step `step-1000-0`, an identifier reused across separate render
calls within one session. -/
theorem c9_id_reuse_counterexample :
    stepIdsOf (parseBlocks 1000 ("1. first render step")) =
        [("step-1000-0").data] ∧
      stepIdsOf (parseBlocks 1000 ("2. other render step")) =
        [("step-1000-0").data] :=
  ⟨rfl, rfl⟩

/-- C9 (amended): identical input yields identical output except for the
step identifiers (the output with identifiers blanked is independent of
the sampled clock); within one render call the identifiers are exactly
`step-<now>-0, step-<now>-1, ...` in display order — monotonic in the
counter and pairwise distinct; and an identifier determines its
timestamp and counter exactly, so identifiers from separate render calls
are distinct whenever the sampled clock differs (only same-millisecond
renders can reuse them, as the counterexample shows). -/
theorem c9_step_identifiers_amended :
    (∀ (n1 n2 : Nat) (t : String),
      (parseBlocks n1 t).map stripIds = (parseBlocks n2 t).map stripIds) ∧
    (∀ (now : Nat) (t : String),
      stepIdsOf (parseBlocks now t) =
        (List.range' 0 ((splitNl t.data).countP isStepLine)).map
          (stepId now)) ∧
    (∀ (now : Nat) (t : String), (stepIdsOf (parseBlocks now t)).Nodup) ∧
    (∀ n1 k1 n2 k2 : Nat,
      stepId n1 k1 = stepId n2 k2 → n1 = n2 ∧ k1 = k2) := by
  refine ⟨?_, ?_, ?_, fun n1 k1 n2 k2 h => stepId_inj h⟩
  · intro n1 n2 t
    exact parseBlocksLoop_stripIds n1 n2 _ none 0
  · intro now t
    exact parseBlocksLoop_stepIds now _ none 0
  · intro now t
    show (stepIdsOf (parseBlocksLoop now (splitNl t.data) none 0)).Nodup
    rw [parseBlocksLoop_stepIds now (splitNl t.data) none 0]
    apply List.Nodup.map
    · intro a b hab
      exact (stepId_inj hab).2
    · exact List.nodup_range' 0 _

/-- Concrete instantiation of the identifier-decoding half of C9. -/
theorem c9_step_identifiers_amended_witness : 1000 = 1000 ∧ 3 = 3 :=
  c9_step_identifiers_amended.2.2.2 1000 3 1000 3 rfl
